import Mathlib

/-!
# Scanline polygon fill (`polyfill.c`)

A shallow embedding of `fill_polygon` and its helpers, followed by theorems
about the spans it hands to `hline`.

Conventions of the embedding

* A C `int` is an `Int`; every `int` operation whose mathematical result can
  leave the 32-bit range is reduced with `wrap32` (two's complement), every
  `long` / `long long` operation with `wrap64` (`long` has 64 bits, as on
  LP64 platforms). Division truncates toward zero (`Int.tdiv`); `>>` on a
  negative `long` is the arithmetic shift.
* `coords` is a pointer in C; here it is the function from an index to the
  `int` stored there. The index arithmetic on `i` and `npoints` is not
  wrapped (it stays in the `int` range for `npoints < 2^30`).
* `hline` is a callback in C; here the calls are collected, in order, in the
  `calls` field of the result.
* `malloc` does not initialise the edge array: the content of its slot 0 is
  the parameter `heap`, read by `find_min_max_y` when no edge was stored.
* `sweep` and `fill_polygon` describe one pass of the sweep over the rows
  `min_y .. max_y`, with an unbounded counter. That is the whole run unless
  `max_y` is `INT_MAX`: then the test `y <= max_y` of the source never fails,
  `y++` wraps and the loop goes on; `fill_polygon` marks these inputs with the
  fault `counter_overflow` and holds the calls of the first pass only.
  `sweep_wrapping` and `fill_polygon_wrapping` are the same loop with its `int`
  counter, observed for a given number of tests of `y <= max_y`;
  `fill_polygon_wrapping_spec` relates the two.
-/

namespace Polyfill

/-! ## Machine integers -/

/-- Reduction of an integer to the signed 32-bit range (a C `int`). -/
def wrap32 (n : Int) : Int := (n + 2147483648) % 4294967296 - 2147483648

/-- Reduction of an integer to the signed 64-bit range (`long`, `long long`). -/
def wrap64 (n : Int) : Int :=
  (n + 9223372036854775808) % 18446744073709551616 - 9223372036854775808

/-- The C expression `x << k` on an `int`. -/
def shl32 (x : Int) (k : Nat) : Int := wrap32 (x * 2 ^ k)

/-- The C expression `x << k` on a `long long`. -/
def shl64 (x : Int) (k : Nat) : Int := wrap64 (x * 2 ^ k)

/-- The largest C `int`. -/
def INT_MAX : Int := 2147483647

/-! ## Data model -/

/-- The C `struct edge`. -/
structure edge where
  x1 : Int
  y1 : Int
  x2 : Int
  y2 : Int
  active : Bool
  inverse_slope : Int
deriving DecidableEq

/-- One call `hline(x1, x2, y)`. -/
structure hline where
  x1 : Int
  x2 : Int
  y : Int
deriving DecidableEq

/-- The ways a run can stop other than by returning. -/
inductive Fault where
  | division_by_zero
  | assertion
  | counter_overflow
deriving DecidableEq

/-- Ghost record of one row of the sweep: the row, the edge array after the
active flags were updated, and the intersections collected (before sorting). -/
structure row where
  y : Int
  edges : List edge
  intersections : List Int
deriving DecidableEq

/-- What a run of `fill_polygon` did: the `hline` calls in order, the rows the
sweep visited (ghost), and the fault that stopped it, if any. -/
structure Run where
  calls : List hline
  rows : List row
  fault : Option Fault
deriving DecidableEq

/-! ## The helpers of `polyfill.c` -/

/-- The comparator handed to `qsort`. -/
def compare_ints (l r : Int) : Int :=
  if l < r then -1 else if l = r then 0 else 1

/-- The body of the loop of `find_min_max_y`: `m` holds `(mi, ma)`. -/
def min_max_step (m : Int × Int) (e : edge) : Int × Int :=
  (if e.y1 < m.1 then e.y1 else m.1, if e.y2 ≥ m.2 then e.y2 else m.2)

/-- The loop of `find_min_max_y`: `mi` and `ma` start from slot 0 of the edge
array (`heap` when the array holds no edge) and every edge updates them. -/
def find_min_max_y (heap : edge) (edges : List edge) : Int × Int :=
  let e0 := edges.headD heap
  edges.foldl min_max_step (e0.y1, e0.y2)

/-- The constant `FRACBITS`. -/
def FRACBITS : Nat := 16

/-- The constant `ONEHALF`, `1 << (FRACBITS-1)`. -/
def ONEHALF : Int := shl32 1 (FRACBITS - 1)

/-- The expression `fp_div(x, y, z)`: `x` widened and shifted left by `z`, then
divided by `y` with C's truncating division. The division traps when `y` is
zero; `fill_polygon` reports that case before using the value. -/
def fp_div (x y : Int) (z : Nat) : Int := wrap64 (Int.tdiv (shl64 x z) y)

/-- The divisor `(edge->y2 - edge->y1) << FRACBITS` of the slope division. -/
def slope_divisor (y1 y2 : Int) : Int := shl32 (wrap32 (y2 - y1)) FRACBITS

/-- The body of the `if(y1 != y2)` block: the edge stored for the vertex pair
`(x1,y1)`, `(x2,y2)`. -/
def make_edge (x1 y1 x2 y2 : Int) : edge :=
  let swap : Bool := decide (y1 > y2)
  let ex1 := if swap then x2 else x1
  let ey1 := if swap then y2 else y1
  let ex2 := if swap then x1 else x2
  let ey2 := if swap then y1 else y2
  { x1 := ex1, y1 := ey1, x2 := ex2, y2 := ey2, active := false,
    inverse_slope :=
      fp_div (shl32 (wrap32 (ex2 - ex1)) FRACBITS) (slope_divisor ey1 ey2) FRACBITS }

/-- The edge-extraction loop: for `i = 0 .. npoints-1` the pair of vertex `i`
and vertex `i+1` (indices taken modulo `2*npoints`) is stored unless the two
`y` are equal. -/
def edge_table (coords : Nat → Int) (npoints : Nat) : List edge :=
  (List.range npoints).filterMap fun i =>
    let x1 := coords (2 * i + 0)
    let y1 := coords (2 * i + 1)
    let x2 := coords ((2 * i + 2) % (npoints * 2))
    let y2 := coords ((2 * i + 3) % (npoints * 2))
    if y1 ≠ y2 then some (make_edge x1 y1 x2 y2) else none

/-- One step of the loop that updates the active flags on row `y`. -/
def update_active (y : Int) (e : edge) : edge :=
  if e.y1 = y then { e with active := true }
  else if e.y2 = y then { e with active := false }
  else e

/-- The `long` expression `(inverse_slope * (y - y1) + ONEHALF) >> FRACBITS`:
`y - y1` is computed in `int`, the product and the sum in `long`, and `>>` is
the arithmetic shift (rounding toward minus infinity). -/
def offset (e : edge) (y : Int) : Int :=
  wrap64 (wrap64 (e.inverse_slope * wrap32 (y - e.y1)) + ONEHALF) >>> FRACBITS

/-- The intersection of edge `e` with row `y`: `x = x1` followed by
`x += (inverse_slope * (y - y1) + ONEHALF) >> FRACBITS`, with `x` an `int`. -/
def intersection (e : edge) (y : Int) : Int :=
  wrap32 (e.x1 + offset e y)

/-- The loop that collects the intersections of the active edges, in table order. -/
def collect (edges : List edge) (y : Int) : List Int :=
  edges.filterMap fun e => if e.active then some (intersection e y) else none

/-- The call of `qsort` with `compare_ints`: the array sorted so that the
comparator is never positive on an element and a later one. -/
def qsort (xs : List Int) : List Int :=
  xs.insertionSort (fun a b => compare_ints a b ≤ 0)

/-- The loop `for(i = 0; i < n; i += 2) hline(xs[i], xs[i+1], y)` on an array of
even length. -/
def emit : Int → List Int → List hline
  | y, a :: b :: rest => ⟨a, b, y⟩ :: emit y rest
  | _, _ => []

/-- One pass of the sweep `for(y = ...; y <= max_y; y++)`, with `fuel` the
number of rows up to `max_y` still to visit and the counter not wrapped. A row
with an odd number of intersections stops the run at the `assert`. The loop of
the source with its wrapping `int` counter is `sweep_wrapping`. -/
def sweep : Nat → Int → List edge → Run
  | 0, _, _ => ⟨[], [], none⟩
  | fuel + 1, y, edges =>
    let edges1 := edges.map (update_active y)
    let xs := collect edges1 y
    if xs.length % 2 ≠ 0 then ⟨[], [⟨y, edges1, xs⟩], some Fault.assertion⟩
    else
      let rest := sweep fuel (y + 1) edges1
      ⟨emit y (qsort xs) ++ rest.calls, ⟨y, edges1, xs⟩ :: rest.rows, rest.fault⟩

/-- The function `fill_polygon`, with one pass of the sweep. When `max_y` is
`INT_MAX` the loop of the source does not end after this pass: the result then
carries the fault `counter_overflow` and the calls of the first pass, and
`fill_polygon_wrapping` gives what the run does afterwards. -/
def fill_polygon (heap : edge) (coords : Nat → Int) (npoints : Int) : Run :=
  if npoints < 3 then ⟨[], [], none⟩
  else
    let edges := edge_table coords npoints.toNat
    if edges.any (fun e => decide (slope_divisor e.y1 e.y2 = 0)) then
      ⟨[], [], some Fault.division_by_zero⟩
    else
      let m := find_min_max_y heap edges
      let r := sweep (m.2 - m.1 + 1).toNat m.1 edges
      ⟨r.calls, r.rows,
        if r.fault = none ∧ m.2 = INT_MAX then some Fault.counter_overflow else r.fault⟩

/-! ## Polygons as vertex lists -/

/-- The `coords` array of a vertex list: `x` of vertex `i` at index `2*i`, its
`y` at index `2*i+1`. -/
def coords_of (v : List (Int × Int)) (i : Nat) : Int :=
  if i % 2 = 0 then (v.getD (i / 2) (0, 0)).1 else (v.getD (i / 2) (0, 0)).2

/-- The run of `fill_polygon` on a vertex list. -/
def fill (heap : edge) (v : List (Int × Int)) : Run :=
  fill_polygon heap (coords_of v) v.length

/-- Some initial content of the edge array. -/
def heap0 : edge := ⟨0, 0, 0, 0, false, 0⟩

/-! ## Notions used to state the properties -/

/-- The flag the specification gives an edge on row `y`: started, not yet ended. -/
def active_on (e : edge) (y : Int) : Bool := decide (e.y1 ≤ y ∧ y < e.y2)

/-- The edge array with every flag set to its specified value on row `y`. -/
def set_flags (y : Int) (edges : List edge) : List edge :=
  edges.map fun e => { e with active := active_on e y }

/-- The intersections on row `y` of the edges with `y1 ≤ y < y2`, in table order. -/
def row_xs (edges : List edge) (y : Int) : List Int :=
  (edges.filter fun e => active_on e y).map fun e => intersection e y

/-- The rows `y, y+1, ..., y+n-1`. -/
def rows_from : Int → Nat → List Int
  | _, 0 => []
  | y, n + 1 => y :: rows_from (y + 1) n

/-- The calls the specification gives row `y`: the sorted intersections of the
edges with `y1 ≤ y < y2`, paired. -/
def row_calls (edges : List edge) (y : Int) : List hline :=
  emit y (qsort (row_xs edges y))

/-- The ghost record the specification gives row `y`. -/
def row_record (edges : List edge) (y : Int) : row :=
  ⟨y, set_flags y edges, row_xs edges y⟩

/-- The vertex pairs the extraction loop visits: each vertex with its cyclic
successor. -/
def cyclic_pairs (v : List (Int × Int)) : List ((Int × Int) × (Int × Int)) :=
  v.zip (v.rotate 1)

/-- The edge the extraction loop stores for a vertex pair, if any. -/
def pair_edge (p : (Int × Int) × (Int × Int)) : Option edge :=
  if p.1.2 ≠ p.2.2 then some (make_edge p.1.1 p.1.2 p.2.1 p.2.2) else none

/-- Whether the two ends of a vertex pair lie on different sides of the line
between row `y` and row `y+1`. -/
def crosses (y : Int) (p : (Int × Int) × (Int × Int)) : Bool :=
  xor (decide (p.1.2 ≤ y)) (decide (p.2.2 ≤ y))

/-- No edge of the table has a zero slope divisor. -/
def no_trap (edges : List edge) : Prop :=
  edges.any (fun e => decide (slope_divisor e.y1 e.y2 = 0)) = false

/-- Every coordinate of the polygon has absolute value at most 16383. -/
def in_range (v : List (Int × Int)) : Prop :=
  ∀ q ∈ v, (-16383 ≤ q.1 ∧ q.1 ≤ 16383) ∧ (-16383 ≤ q.2 ∧ q.2 ≤ 16383)

instance in_range_decidable : DecidablePred in_range := fun v => by
  unfold in_range; infer_instance

/-- The order of two consecutive calls: the later one is on a later row, or on
the same row and starts no earlier than the earlier one starts and ends. -/
def precedes (s t : hline) : Prop :=
  s.y < t.y ∨ (s.y = t.y ∧ s.x1 ≤ t.x1 ∧ s.x2 ≤ t.x1)

instance precedes_decidable : DecidableRel precedes := fun s t =>
  inferInstanceAs (Decidable (s.y < t.y ∨ (s.y = t.y ∧ s.x1 ≤ t.x1 ∧ s.x2 ≤ t.x1)))

/-- The least `y` over all vertices of the polygon. -/
def vertex_min_y (v : List (Int × Int)) : Int :=
  (v.map Prod.snd).foldl min (v.headD (0, 0)).2

/-- The greatest `y` over all vertices of the polygon. -/
def vertex_max_y (v : List (Int × Int)) : Int :=
  (v.map Prod.snd).foldl max (v.headD (0, 0)).2

/-- An edge as the extraction loop stores it for two vertices with coordinates
of absolute value at most 16383. -/
def edge_ok (e : edge) : Prop :=
  e.y1 < e.y2 ∧
  e.inverse_slope
    = fp_div (shl32 (wrap32 (e.x2 - e.x1)) FRACBITS) (slope_divisor e.y1 e.y2) FRACBITS ∧
  (-16383 ≤ e.x1 ∧ e.x1 ≤ 16383) ∧ (-16383 ≤ e.x2 ∧ e.x2 ≤ 16383) ∧
  (-16383 ≤ e.y1 ∧ e.y1 ≤ 16383) ∧ (-16383 ≤ e.y2 ∧ e.y2 ≤ 16383)

/-- A vertex moved by `(dx, dy)`. -/
def shift_vertex (dx dy : Int) (q : Int × Int) : Int × Int := (q.1 + dx, q.2 + dy)

/-- The polygon with every vertex moved by `(dx, dy)`. -/
def translate (dx dy : Int) (v : List (Int × Int)) : List (Int × Int) :=
  v.map (shift_vertex dx dy)

/-- An edge with both ends moved by `(dx, dy)`. -/
def shift_edge (dx dy : Int) (e : edge) : edge :=
  { e with x1 := e.x1 + dx, y1 := e.y1 + dy, x2 := e.x2 + dx, y2 := e.y2 + dy }

/-- A call moved by `(dx, dy)`: `(a + dx, b + dx, y + dy)`. -/
def shift_call (dx dy : Int) (s : hline) : hline := ⟨s.x1 + dx, s.x2 + dx, s.y + dy⟩

/-- No two cyclically consecutive vertices have the same `y`. -/
def no_horizontal (v : List (Int × Int)) : Prop :=
  ∀ p ∈ cyclic_pairs v, p.1.2 ≠ p.2.2

/-- The point at parameter `t` on the segment from `a` to `b`. -/
def point_on (a b : Int × Int) (t : ℚ) : ℚ × ℚ :=
  ((a.1 : ℚ) + t * ((b.1 : ℚ) - (a.1 : ℚ)), (a.2 : ℚ) + t * ((b.2 : ℚ) - (a.2 : ℚ)))

/-- A simple closed polygon: the closed curve through the vertices meets no
point twice. Edge `i` runs from vertex `i` (parameter 0, included) to vertex
`i+1` cyclically (parameter 1, excluded). -/
def simple (v : List (Int × Int)) : Prop :=
  ∀ i j : Nat, i < v.length → j < v.length → ∀ s t : ℚ, 0 ≤ s → s < 1 → 0 ≤ t → t < 1 →
    point_on (v.getD i (0, 0)) (v.getD ((i + 1) % v.length) (0, 0)) s
      = point_on (v.getD j (0, 0)) (v.getD ((j + 1) % v.length) (0, 0)) t →
    i = j ∧ s = t

instance no_horizontal_decidable : DecidablePred no_horizontal := fun v => by
  unfold no_horizontal; infer_instance

/-- The flag-free reference of the specification, on the edge table and the
extent of the code: for each `y` from `min_y` to `max_y` the intersections of
the edges with `y1 ≤ y < y2` are collected in table order, sorted ascending, and
emitted in consecutive pairs. -/
def fill_polygon_reference (heap : edge) (coords : Nat → Int) (npoints : Int) : List hline :=
  if npoints < 3 then []
  else
    let edges := edge_table coords npoints.toNat
    if edges.any (fun e => decide (slope_divisor e.y1 e.y2 = 0)) then []
    else
      let m := find_min_max_y heap edges
      (rows_from m.1 (m.2 - m.1 + 1).toNat).flatMap fun y =>
        emit y (qsort ((edges.filter fun e => decide (e.y1 ≤ y ∧ y < e.y2)).map
          fun e => intersection e y))

/-- Every two consecutive elements `s`, `t` of the call sequence `l` satisfy
`R s t`. -/
def consecutive (R : hline → hline → Prop) (l : List hline) : Prop :=
  ∀ (i : Nat) (s t : hline), l[i]? = some s → l[i + 1]? = some t → R s t

/-- The strict order of two consecutive calls: the later one is on a later row,
or on the same row and starts after the earlier one ends. -/
def strictly_precedes (s t : hline) : Prop :=
  s.y < t.y ∨ (s.y = t.y ∧ s.x2 < t.x1)

instance strictly_precedes_decidable : DecidableRel strictly_precedes := fun s t =>
  inferInstanceAs (Decidable (s.y < t.y ∨ (s.y = t.y ∧ s.x2 < t.x1)))

/-- The order of two consecutive calls that may touch: the later one is on a
later row, or on the same row and starts no earlier than the earlier one ends. -/
def weakly_precedes (s t : hline) : Prop :=
  s.y < t.y ∨ (s.y = t.y ∧ s.x2 ≤ t.x1)

instance weakly_precedes_decidable : DecidableRel weakly_precedes := fun s t =>
  inferInstanceAs (Decidable (s.y < t.y ∨ (s.y = t.y ∧ s.x2 ≤ t.x1)))

/-- The value fits a C `int`. -/
def is_int (n : Int) : Prop := -2147483648 ≤ n ∧ n < 2147483648

instance is_int_decidable : DecidablePred is_int := fun n =>
  inferInstanceAs (Decidable (-2147483648 ≤ n ∧ n < 2147483648))

/-- The least `x` over all vertices of the polygon. -/
def vertex_min_x (v : List (Int × Int)) : Int :=
  (v.map Prod.fst).foldl min (v.headD (0, 0)).1

/-- The greatest `x` over all vertices of the polygon. -/
def vertex_max_x (v : List (Int × Int)) : Int :=
  (v.map Prod.fst).foldl max (v.headD (0, 0)).1

/-- Every stored edge has `|x2 - x1| < 2^15` and `y2 - y1 < 2^15`. -/
def small_edges (edges : List edge) : Prop :=
  ∀ e ∈ edges, (-32768 < e.x2 - e.x1 ∧ e.x2 - e.x1 < 32768) ∧ e.y2 - e.y1 < 32768

instance small_edges_decidable : DecidablePred small_edges := fun edges =>
  inferInstanceAs (Decidable
    (∀ e ∈ edges, (-32768 < e.x2 - e.x1 ∧ e.x2 - e.x1 < 32768) ∧ e.y2 - e.y1 < 32768))

/-- The exact rational intersection of the line through `(x1,y1)` and `(x2,y2)`
with row `y`: `x1 + (x2 - x1) (y - y1) / (y2 - y1)`. -/
def exact_x (x1 y1 x2 y2 y : Int) : ℚ :=
  (x1 : ℚ) + ((x2 : ℚ) - (x1 : ℚ)) * ((y : ℚ) - (y1 : ℚ)) / ((y2 : ℚ) - (y1 : ℚ))

/-- The slope the code is meant to store: `(x2 - x1) * 2^16 / (y2 - y1)`
truncated toward zero. -/
def fixed_slope (x1 y1 x2 y2 : Int) : Int := Int.tdiv ((x2 - x1) * 65536) (y2 - y1)

/-- The smallest C `int`. -/
def INT_MIN : Int := -2147483648

/-- The sweep `for(int y = min_y; y <= max_y; y++)` with its `int` counter,
observed for `n` tests of `y <= max_y`: the calls made so far. The increment is
`wrap32 (y + 1)`, so that with `max_y = INT_MAX` the test never fails; a failed
test ends the loop and a failed `assert` ends the run. -/
def sweep_wrapping (max_y : Int) : Nat → Int → List edge → List hline
  | 0, _, _ => []
  | n + 1, y, edges =>
    if y ≤ max_y then
      if (collect (edges.map (update_active y)) y).length % 2 ≠ 0 then []
      else
        emit y (qsort (collect (edges.map (update_active y)) y))
          ++ sweep_wrapping max_y n (wrap32 (y + 1)) (edges.map (update_active y))
    else []

/-- The calls of `fill_polygon` up to the `n`-th test of the sweep loop, with
the wrapping counter of `sweep_wrapping`. -/
def fill_polygon_wrapping (heap : edge) (coords : Nat → Int) (npoints : Int) (n : Nat) :
    List hline :=
  if npoints < 3 then []
  else
    let edges := edge_table coords npoints.toNat
    if edges.any (fun e => decide (slope_divisor e.y1 e.y2 = 0)) then []
    else
      let m := find_min_max_y heap edges
      sweep_wrapping m.2 n m.1 edges

/-- Every vertex `y` of the polygon is a C `int` below `INT_MAX`. -/
def y_below_max (v : List (Int × Int)) : Prop :=
  ∀ q ∈ v, INT_MIN ≤ q.2 ∧ q.2 < INT_MAX

instance y_below_max_decidable : DecidablePred y_below_max := fun v =>
  inferInstanceAs (Decidable (∀ q ∈ v, INT_MIN ≤ q.2 ∧ q.2 < INT_MAX))

/-! ## Machine integers: facts -/

theorem wrap32_of_range {n : Int} (h1 : -2147483648 ≤ n) (h2 : n < 2147483648) :
    wrap32 n = n := by
  unfold wrap32; omega

theorem wrap64_of_range {n : Int} (h1 : -9223372036854775808 ≤ n)
    (h2 : n < 9223372036854775808) : wrap64 n = n := by
  unfold wrap64; omega

theorem ONEHALF_eq : ONEHALF = 32768 := by decide

/-! ## Sorting -/

theorem compare_ints_le (a b : Int) : compare_ints a b ≤ 0 ↔ a ≤ b := by
  unfold compare_ints
  split_ifs with h1 h2 <;> omega

theorem qsort_perm (xs : List Int) : (qsort xs).Perm xs :=
  List.perm_insertionSort _ xs

theorem qsort_length (xs : List Int) : (qsort xs).length = xs.length :=
  (qsort_perm xs).length_eq

theorem qsort_sorted (xs : List Int) : (qsort xs).Sorted (fun a b => a ≤ b) := by
  have inst1 : IsTotal Int (fun a b => compare_ints a b ≤ 0) :=
    ⟨fun a b => by simp only [compare_ints_le]; exact le_total a b⟩
  have inst2 : IsTrans Int (fun a b => compare_ints a b ≤ 0) :=
    ⟨fun a b c => by simp only [compare_ints_le]; exact le_trans⟩
  have h := List.sorted_insertionSort (fun a b => compare_ints a b ≤ 0) xs
  exact h.imp (fun {a b} hab => (compare_ints_le a b).1 hab)

theorem qsort_eq_of_perm {xs ys : List Int} (h : xs.Perm ys) : qsort xs = qsort ys :=
  List.eq_of_perm_of_sorted ((qsort_perm xs).trans (h.trans (qsort_perm ys).symm))
    (qsort_sorted xs) (qsort_sorted ys)

theorem qsort_nil : qsort [] = [] := rfl

/-! ## The active flags during the sweep -/

theorem intersection_flag (e : edge) (b : Bool) (y : Int) :
    intersection { e with active := b } y = intersection e y := rfl

theorem update_active_flag (e : edge) (y : Int) (h : e.y1 < e.y2) :
    update_active y { e with active := active_on e (y - 1) }
      = { e with active := active_on e y } := by
  unfold update_active active_on
  by_cases h1 : e.y1 = y
  · have : e.y1 ≤ y ∧ y < e.y2 := ⟨by omega, by omega⟩
    simp [h1, this]
  · by_cases h2 : e.y2 = y
    · have : ¬ (e.y1 ≤ y ∧ y < e.y2) := by omega
      simp [h1, h2, this]
    · have : (e.y1 ≤ y - 1 ∧ y - 1 < e.y2) ↔ (e.y1 ≤ y ∧ y < e.y2) := by omega
      simp [h1, h2, this]

theorem update_set_flags (edges : List edge) (y : Int) (h : ∀ e ∈ edges, e.y1 < e.y2) :
    (set_flags (y - 1) edges).map (update_active y) = set_flags y edges := by
  unfold set_flags
  rw [List.map_map]
  apply List.map_congr_left
  intro e he
  exact update_active_flag e y (h e he)

theorem collect_set_flags (edges : List edge) (y : Int) :
    collect (set_flags y edges) y = row_xs edges y := by
  unfold collect set_flags row_xs
  induction edges with
  | nil => rfl
  | cons e es ih =>
    by_cases h : active_on e y = true
    · simp [List.filter_cons, h, intersection_flag] at ih ⊢
      exact ih
    · simp [List.filter_cons, h] at ih ⊢
      exact ih

/-- The sweep started with the specified flags of the row before: when no row
has an odd number of active edges, it visits `fuel` rows, emits on each the
pairs of the sorted intersections of the edges with `y1 ≤ y < y2`, and returns. -/
theorem sweep_set_flags (edges : List edge) (h : ∀ e ∈ edges, e.y1 < e.y2)
    (heven : ∀ y, (row_xs edges y).length % 2 = 0) :
    ∀ (fuel : Nat) (y : Int),
      sweep fuel y (set_flags (y - 1) edges)
        = ⟨(rows_from y fuel).flatMap (row_calls edges),
           (rows_from y fuel).map (row_record edges), none⟩ := by
  intro fuel
  induction fuel with
  | zero => intro y; rfl
  | succ n ih =>
    intro y
    have hstep := ih (y + 1)
    rw [show y + 1 - 1 = y by omega] at hstep
    simp only [sweep, update_set_flags edges y h, collect_set_flags, heven y,
      ne_eq, not_true_eq_false, if_false, hstep]
    simp [rows_from, row_calls, row_record]

/-! ## The edge table of a vertex list -/

theorem coords_of_even (v : List (Int × Int)) (i : Nat) :
    coords_of v (2 * i) = (v.getD i (0, 0)).1 := by
  unfold coords_of
  have h1 : (2 * i) % 2 = 0 := by omega
  have h2 : (2 * i) / 2 = i := by omega
  simp [h1, h2]

theorem coords_of_odd (v : List (Int × Int)) (i : Nat) :
    coords_of v (2 * i + 1) = (v.getD i (0, 0)).2 := by
  unfold coords_of
  have h1 : (2 * i + 1) % 2 ≠ 0 := by omega
  have h2 : (2 * i + 1) / 2 = i := by omega
  simp [h1, h2]

theorem next_index_even (n i : Nat) (h : i < n) :
    (2 * i + 2) % (n * 2) = 2 * ((i + 1) % n) := by
  by_cases h1 : i + 1 < n
  · rw [Nat.mod_eq_of_lt h1, Nat.mod_eq_of_lt (by omega)]; omega
  · have h2 : i + 1 = n := by omega
    rw [h2, Nat.mod_self, show 2 * i + 2 = n * 2 by omega, Nat.mod_self]

theorem next_index_odd (n i : Nat) (h : i < n) :
    (2 * i + 3) % (n * 2) = 2 * ((i + 1) % n) + 1 := by
  by_cases h1 : i + 1 < n
  · rw [Nat.mod_eq_of_lt h1, Nat.mod_eq_of_lt (by omega)]; omega
  · have h2 : i + 1 = n := by omega
    rw [h2, Nat.mod_self, show 2 * i + 3 = 1 + n * 2 by omega, Nat.add_mod_right,
      Nat.mod_eq_of_lt (by omega)]

theorem cyclic_pairs_eq_map (v : List (Int × Int)) :
    cyclic_pairs v
      = (List.range v.length).map
          (fun i => (v.getD i (0, 0), v.getD ((i + 1) % v.length) (0, 0))) := by
  unfold cyclic_pairs
  apply List.ext_getElem
  · simp
  · intro i h1 h2
    have hi : i < v.length := by simpa using h2
    have hn : (i + 1) % v.length < v.length := Nat.mod_lt _ (by omega)
    simp [List.getElem_zip, List.getElem_rotate, List.getD_eq_getElem, hi, hn]

theorem edge_table_eq (v : List (Int × Int)) :
    edge_table (coords_of v) v.length = (cyclic_pairs v).filterMap pair_edge := by
  rw [cyclic_pairs_eq_map, List.filterMap_map]
  unfold edge_table
  apply List.filterMap_congr
  intro i hi
  have hi' : i < v.length := List.mem_range.1 hi
  simp only [add_zero, coords_of_even, coords_of_odd, next_index_even _ _ hi',
    next_index_odd _ _ hi', Function.comp, pair_edge]

/-! ## Edges of a closed chain: parity of the crossings of a row -/

theorem make_edge_y1 (x1 y1 x2 y2 : Int) :
    (make_edge x1 y1 x2 y2).y1 = if y1 > y2 then y2 else y1 := by
  unfold make_edge; by_cases h : y1 > y2 <;> simp [h]

theorem make_edge_y2 (x1 y1 x2 y2 : Int) :
    (make_edge x1 y1 x2 y2).y2 = if y1 > y2 then y1 else y2 := by
  unfold make_edge; by_cases h : y1 > y2 <;> simp [h]

theorem make_edge_x1 (x1 y1 x2 y2 : Int) :
    (make_edge x1 y1 x2 y2).x1 = if y1 > y2 then x2 else x1 := by
  unfold make_edge; by_cases h : y1 > y2 <;> simp [h]

theorem make_edge_x2 (x1 y1 x2 y2 : Int) :
    (make_edge x1 y1 x2 y2).x2 = if y1 > y2 then x1 else x2 := by
  unfold make_edge; by_cases h : y1 > y2 <;> simp [h]

theorem make_edge_active (x1 y1 x2 y2 : Int) : (make_edge x1 y1 x2 y2).active = false := rfl

theorem make_edge_lt (x1 y1 x2 y2 : Int) (h : y1 ≠ y2) :
    (make_edge x1 y1 x2 y2).y1 < (make_edge x1 y1 x2 y2).y2 := by
  rw [make_edge_y1, make_edge_y2]
  split_ifs <;> omega

theorem pair_edge_some {p : (Int × Int) × (Int × Int)} {e : edge} (h : pair_edge p = some e) :
    p.1.2 ≠ p.2.2 ∧ e = make_edge p.1.1 p.1.2 p.2.1 p.2.2 := by
  unfold pair_edge at h
  by_cases hy : p.1.2 = p.2.2
  · simp [hy] at h
  · simp [hy] at h
    exact ⟨hy, h.symm⟩

theorem mem_edge_table {v : List (Int × Int)} {e : edge}
    (h : e ∈ edge_table (coords_of v) v.length) :
    ∃ p ∈ cyclic_pairs v, p.1.2 ≠ p.2.2 ∧ e = make_edge p.1.1 p.1.2 p.2.1 p.2.2 := by
  rw [edge_table_eq, List.mem_filterMap] at h
  obtain ⟨p, hp, hpe⟩ := h
  exact ⟨p, hp, pair_edge_some hpe⟩

theorem edge_table_lt (v : List (Int × Int)) :
    ∀ e ∈ edge_table (coords_of v) v.length, e.y1 < e.y2 := by
  intro e he
  obtain ⟨p, _, hne, rfl⟩ := mem_edge_table he
  exact make_edge_lt _ _ _ _ hne

theorem edge_table_inactive (v : List (Int × Int)) :
    ∀ e ∈ edge_table (coords_of v) v.length, e.active = false := by
  intro e he
  obtain ⟨p, _, _, rfl⟩ := mem_edge_table he
  rfl

theorem active_on_make_edge (x1 y1 x2 y2 y : Int) :
    active_on (make_edge x1 y1 x2 y2) y = crosses y ((x1, y1), (x2, y2)) := by
  unfold active_on crosses
  rw [make_edge_y1, make_edge_y2]
  by_cases h1 : y1 ≤ y <;> by_cases h2 : y2 ≤ y <;> by_cases h3 : y1 > y2 <;>
    simp [h1, h2, h3] <;> omega

theorem crosses_of_eq (y : Int) (p : (Int × Int) × (Int × Int)) (h : p.1.2 = p.2.2) :
    crosses y p = false := by
  unfold crosses; simp [h]

theorem filter_active_length (y : Int) (ps : List ((Int × Int) × (Int × Int))) :
    ((ps.filterMap pair_edge).filter (fun e => active_on e y)).length
      = (ps.filter (crosses y)).length := by
  induction ps with
  | nil => rfl
  | cons p ps ih =>
    by_cases hy : p.1.2 = p.2.2
    · have h1 : pair_edge p = none := by simp [pair_edge, hy]
      simp [List.filterMap_cons, h1, List.filter_cons, crosses_of_eq y p hy, ih]
    · have h1 : pair_edge p = some (make_edge p.1.1 p.1.2 p.2.1 p.2.2) := by
        simp [pair_edge, hy]
      have h2 := active_on_make_edge p.1.1 p.1.2 p.2.1 p.2.2 y
      simp only [Prod.mk.eta] at h2
      simp only [List.filterMap_cons, h1, List.filter_cons, h2]
      by_cases hc : crosses y p = true
      · simp [hc, ih]
      · simp [hc, ih]

theorem chain_parity (y : Int) (z : Int × Int) :
    ∀ (t : List (Int × Int)) (a : Int × Int),
      (((a :: t).zip (t ++ [z])).filter (crosses y)).length % 2
        = if crosses y (a, z) = true then 1 else 0 := by
  intro t
  induction t with
  | nil =>
    intro a
    by_cases h : crosses y (a, z) = true <;> simp [h]
  | cons b t ih =>
    intro a
    have hb := ih b
    simp only [List.cons_append, List.zip_cons_cons, List.filter_cons]
    unfold crosses at hb ⊢
    by_cases h1 : a.2 ≤ y <;> by_cases h2 : b.2 ≤ y <;> by_cases h3 : z.2 ≤ y <;>
      simp [h1, h2, h3] at hb ⊢ <;> omega

theorem cyclic_pairs_cons (a : Int × Int) (t : List (Int × Int)) :
    cyclic_pairs (a :: t) = (a :: t).zip (t ++ [a]) := by
  unfold cyclic_pairs
  rw [List.rotate_cons_succ, List.rotate_zero]

theorem cyclic_parity (y : Int) (v : List (Int × Int)) :
    ((cyclic_pairs v).filter (crosses y)).length % 2 = 0 := by
  cases v with
  | nil => rfl
  | cons a t =>
    rw [cyclic_pairs_cons, chain_parity]
    simp [crosses]

theorem row_xs_length (edges : List edge) (y : Int) :
    (row_xs edges y).length = (edges.filter (fun e => active_on e y)).length := by
  simp [row_xs]

/-- On every row the edges of a closed chain with `y1 ≤ y < y2` are even in number. -/
theorem row_xs_even (v : List (Int × Int)) (y : Int) :
    (row_xs (edge_table (coords_of v) v.length) y).length % 2 = 0 := by
  rw [row_xs_length, edge_table_eq, filter_active_length, cyclic_parity]

/-! ## The vertical extent -/

theorem min_max_fold (es : List edge) :
    ∀ m : Int × Int,
      let r := es.foldl min_max_step m
      (r.1 ≤ m.1 ∧ ∀ e ∈ es, r.1 ≤ e.y1) ∧ (m.2 ≤ r.2 ∧ ∀ e ∈ es, e.y2 ≤ r.2) ∧
      (r.1 = m.1 ∨ ∃ e ∈ es, r.1 = e.y1) ∧ (r.2 = m.2 ∨ ∃ e ∈ es, r.2 = e.y2) := by
  induction es with
  | nil => intro m; simp
  | cons e es ih =>
    intro m
    obtain ⟨⟨h1, h2⟩, ⟨h3, h4⟩, h5, h6⟩ := ih (min_max_step m e)
    simp only [List.foldl_cons, List.mem_cons, forall_eq_or_imp, exists_eq_or_imp]
    have a1 : (min_max_step m e).1 ≤ m.1 ∧ (min_max_step m e).1 ≤ e.y1 := by
      unfold min_max_step; dsimp only; split_ifs <;> omega
    have a2 : m.2 ≤ (min_max_step m e).2 ∧ e.y2 ≤ (min_max_step m e).2 := by
      unfold min_max_step; dsimp only; split_ifs <;> omega
    have a3 : (min_max_step m e).1 = m.1 ∨ (min_max_step m e).1 = e.y1 := by
      unfold min_max_step; dsimp only; split_ifs <;> simp
    have a4 : (min_max_step m e).2 = m.2 ∨ (min_max_step m e).2 = e.y2 := by
      unfold min_max_step; dsimp only; split_ifs <;> simp
    refine ⟨⟨by omega, by omega, h2⟩, ⟨by omega, by omega, h4⟩, ?_, ?_⟩
    · rcases h5 with h5 | h5
      · rcases a3 with a3 | a3
        · left; omega
        · right; left; omega
      · right; right; exact h5
    · rcases h6 with h6 | h6
      · rcases a4 with a4 | a4
        · left; omega
        · right; left; omega
      · right; right; exact h6

/-- On a non-empty edge array `find_min_max_y` returns the least `y1` and the
greatest `y2`, whatever slot 0 held before. -/
theorem find_min_max_y_spec (heap : edge) (es : List edge) (hne : es ≠ []) :
    ((∀ e ∈ es, (find_min_max_y heap es).1 ≤ e.y1) ∧
      ∃ e ∈ es, (find_min_max_y heap es).1 = e.y1) ∧
    ((∀ e ∈ es, e.y2 ≤ (find_min_max_y heap es).2) ∧
      ∃ e ∈ es, (find_min_max_y heap es).2 = e.y2) := by
  cases es with
  | nil => exact absurd rfl hne
  | cons e0 es =>
    have h := min_max_fold (e0 :: es) (e0.y1, e0.y2)
    simp only [find_min_max_y, List.headD_cons]
    obtain ⟨⟨_, h2⟩, ⟨_, h4⟩, h5, h6⟩ := h
    refine ⟨⟨h2, ?_⟩, ⟨h4, ?_⟩⟩
    · rcases h5 with h5 | h5
      · exact ⟨e0, List.mem_cons_self _ _, h5⟩
      · exact h5
    · rcases h6 with h6 | h6
      · exact ⟨e0, List.mem_cons_self _ _, h6⟩
      · exact h6

theorem find_min_max_y_bounds (heap : edge) (es : List edge) :
    ∀ e ∈ es, (find_min_max_y heap es).1 ≤ e.y1 ∧ e.y2 ≤ (find_min_max_y heap es).2 := by
  intro e he
  have hne : es ≠ [] := List.ne_nil_of_mem he
  obtain ⟨⟨h1, _⟩, ⟨h2, _⟩⟩ := find_min_max_y_spec heap es hne
  exact ⟨h1 e he, h2 e he⟩

/-! ## The run of `fill_polygon` on a polygon -/

theorem mem_rows_from (r : Int) : ∀ (n : Nat) (a : Int), r ∈ rows_from a n ↔ a ≤ r ∧ r < a + n := by
  intro n
  induction n with
  | zero => intro a; simp [rows_from]
  | succ n ih =>
    intro a
    simp only [rows_from, List.mem_cons, ih, Nat.cast_succ]
    omega

theorem emit_y (y : Int) : ∀ (n : Nat) (xs : List Int), xs.length ≤ n →
    ∀ s ∈ emit y xs, s.y = y
  | 0, xs, h => by
    have : xs = [] := List.length_eq_zero.1 (by omega)
    subst this
    simp [emit]
  | n + 1, [], _ => by simp [emit]
  | n + 1, [_], _ => by simp [emit]
  | n + 1, a :: b :: rest, h => by
    intro s hs
    simp only [emit, List.mem_cons] at hs
    rcases hs with rfl | hs
    · rfl
    · exact emit_y y n rest (by simp at h; omega) s hs

theorem row_calls_y (edges : List edge) (y : Int) : ∀ s ∈ row_calls edges y, s.y = y :=
  emit_y y _ _ le_rfl

theorem set_flags_of_inactive (edges : List edge) (y : Int)
    (h1 : ∀ e ∈ edges, e.active = false) (h2 : ∀ e ∈ edges, y < e.y1) :
    set_flags y edges = edges := by
  unfold set_flags
  conv_rhs => rw [← List.map_id edges]
  apply List.map_congr_left
  intro e he
  have : active_on e y = false := by
    unfold active_on
    have := h2 e he
    simp
    omega
  rw [this, ← h1 e he]
  rfl

/-- The run on a polygon whose slope divisions do not trap: the sweep visits the
rows `min_y .. max_y`, emits on each the paired sorted intersections of the
edges with `y1 ≤ y < y2`, and never stops at the `assert`. -/
theorem fill_run (heap : edge) (v : List (Int × Int)) (h3 : 3 ≤ v.length)
    (hdiv : no_trap (edge_table (coords_of v) v.length)) :
    fill heap v =
      ⟨(rows_from (find_min_max_y heap (edge_table (coords_of v) v.length)).1
          ((find_min_max_y heap (edge_table (coords_of v) v.length)).2
            - (find_min_max_y heap (edge_table (coords_of v) v.length)).1 + 1).toNat).flatMap
          (row_calls (edge_table (coords_of v) v.length)),
       (rows_from (find_min_max_y heap (edge_table (coords_of v) v.length)).1
          ((find_min_max_y heap (edge_table (coords_of v) v.length)).2
            - (find_min_max_y heap (edge_table (coords_of v) v.length)).1 + 1).toNat).map
          (row_record (edge_table (coords_of v) v.length)),
       if (find_min_max_y heap (edge_table (coords_of v) v.length)).2 = INT_MAX
         then some Fault.counter_overflow else none⟩ := by
  have hlen : ¬ ((v.length : Int) < 3) := by omega
  unfold no_trap at hdiv
  have hflags : set_flags ((find_min_max_y heap (edge_table (coords_of v) v.length)).1 - 1)
      (edge_table (coords_of v) v.length) = edge_table (coords_of v) v.length := by
    apply set_flags_of_inactive _ _ (edge_table_inactive v)
    intro e he
    have := (find_min_max_y_bounds heap _ e he).1
    omega
  have hsweep := sweep_set_flags (edge_table (coords_of v) v.length) (edge_table_lt v)
    (row_xs_even v)
    ((find_min_max_y heap (edge_table (coords_of v) v.length)).2
            - (find_min_max_y heap (edge_table (coords_of v) v.length)).1 + 1).toNat
    (find_min_max_y heap (edge_table (coords_of v) v.length)).1
  rw [hflags] at hsweep
  simp only [fill, fill_polygon, hlen, if_false, Int.toNat_ofNat, hdiv, hsweep]
  simp

theorem row_xs_eq_nil_of_not_mem (heap : edge) (edges : List edge) (y : Int)
    (h : ¬ ((find_min_max_y heap edges).1 ≤ y ∧ y < (find_min_max_y heap edges).2)) :
    row_xs edges y = [] := by
  unfold row_xs
  rw [List.map_eq_nil_iff, List.filter_eq_nil_iff]
  intro e he
  have := find_min_max_y_bounds heap edges e he
  unfold active_on
  simp
  omega

/-- The calls of a run on row `s.y` are those the specification gives that row. -/
theorem mem_fill_calls (heap : edge) (v : List (Int × Int)) (h3 : 3 ≤ v.length)
    (hdiv : no_trap (edge_table (coords_of v) v.length)) (s : hline) :
    s ∈ (fill heap v).calls ↔ s ∈ row_calls (edge_table (coords_of v) v.length) s.y := by
  rw [fill_run heap v h3 hdiv]
  simp only [List.mem_flatMap, mem_rows_from]
  constructor
  · rintro ⟨r, _, hs⟩
    rw [row_calls_y _ _ s hs]
    exact hs
  · intro hs
    refine ⟨s.y, ?_, hs⟩
    by_contra hcon
    have : row_xs (edge_table (coords_of v) v.length) s.y = [] := by
      apply row_xs_eq_nil_of_not_mem heap
      intro hin
      apply hcon
      have := hin.1
      have := hin.2
      constructor
      · omega
      · rw [Int.toNat_of_nonneg (by omega)]; omega
    simp [row_calls, this, qsort_nil, emit] at hs

/-! ## Polygons with coordinates of absolute value at most 16383 -/

theorem mem_edge_table_ends {v : List (Int × Int)} {e : edge}
    (h : e ∈ edge_table (coords_of v) v.length) :
    ∃ a ∈ v, ∃ b ∈ v, a.2 ≠ b.2 ∧ e = make_edge a.1 a.2 b.1 b.2 := by
  obtain ⟨p, hp, hne, he⟩ := mem_edge_table h
  have hz := List.of_mem_zip (show (p.1, p.2) ∈ v.zip (v.rotate 1) from hp)
  exact ⟨p.1, hz.1, p.2, List.mem_rotate.1 hz.2, hne, he⟩

theorem slope_divisor_of_small (y1 y2 : Int) (h1 : y1 < y2) (h2 : y2 - y1 < 32768) :
    slope_divisor y1 y2 = (y2 - y1) * 65536 := by
  unfold slope_divisor shl32 FRACBITS
  rw [wrap32_of_range (n := y2 - y1) (by omega) (by omega),
    wrap32_of_range (by omega) (by omega)]
  norm_num

theorem no_trap_of_in_range (v : List (Int × Int)) (hb : in_range v) :
    no_trap (edge_table (coords_of v) v.length) := by
  unfold no_trap
  rw [List.any_eq_false]
  intro e he
  have hlt := edge_table_lt v e he
  obtain ⟨a, ha, b, hb', _, rfl⟩ := mem_edge_table_ends he
  have ra := hb a ha
  have rb := hb b hb'
  rw [make_edge_y1, make_edge_y2] at hlt ⊢
  have hsmall : (if a.2 > b.2 then a.2 else b.2) - (if a.2 > b.2 then b.2 else a.2) < 32768 := by
    split_ifs <;> omega
  rw [slope_divisor_of_small _ _ hlt hsmall]
  simp
  omega

/-! ## Pairing sorted intersections -/

theorem emit_parity (y p : Int) : ∀ (n : Nat) (xs : List Int), xs.length = 2 * n →
    xs.Sorted (fun a b => a ≤ b) →
    ((∃ s ∈ emit y xs, s.x1 ≤ p ∧ p < s.x2) ↔ (xs.filter (fun x => decide (x ≤ p))).length % 2 = 1)
  | 0, xs, h, _ => by
    have : xs = [] := List.length_eq_zero.1 (by omega)
    subst this
    simp [emit]
  | n + 1, [], h, _ => by simp at h
  | n + 1, [_], h, _ => by simp at h; omega
  | n + 1, a :: b :: rest, h, hs => by
    have hrest : rest.length = 2 * n := by simp at h; omega
    have hs' : rest.Sorted (fun a b => a ≤ b) := (List.sorted_cons.1 (List.sorted_cons.1 hs).2).2
    have hab : a ≤ b := (List.sorted_cons.1 hs).1 b (List.mem_cons_self _ _)
    have hb : ∀ c ∈ rest, b ≤ c := (List.sorted_cons.1 (List.sorted_cons.1 hs).2).1
    have ih := emit_parity y p n rest hrest hs'
    simp only [emit, List.exists_mem_cons_iff, List.filter_cons]
    by_cases h2 : b ≤ p
    · have h1 : a ≤ p := le_trans hab h2
      simp only [h1, h2, decide_True, if_true, List.length_cons]
      rw [ih]
      constructor
      · rintro (⟨_, h⟩ | h)
        · omega
        · omega
      · intro h
        right
        omega
    · have hnil : rest.filter (fun x => decide (x ≤ p)) = [] := by
        rw [List.filter_eq_nil_iff]
        intro c hc
        have := hb c hc
        simp
        omega
      have hno : ¬ ∃ s ∈ emit y rest, s.x1 ≤ p ∧ p < s.x2 := by
        rw [ih, hnil]; simp
      by_cases h1 : a ≤ p
      · simp only [h1, h2, decide_True, decide_False, if_true, hnil]
        simp
        left
        omega
      · simp only [h1, h2, decide_False, hnil]
        simp [hno]

theorem row_calls_parity (edges : List edge) (y p : Int)
    (heven : (row_xs edges y).length % 2 = 0) :
    (∃ s ∈ row_calls edges y, s.x1 ≤ p ∧ p < s.x2) ↔
      (edges.filter
        (fun e => decide (e.y1 ≤ y ∧ y < e.y2 ∧ intersection e y ≤ p))).length % 2 = 1 := by
  unfold row_calls
  have hlen : (qsort (row_xs edges y)).length = 2 * ((row_xs edges y).length / 2) := by
    rw [qsort_length]; omega
  rw [emit_parity y p _ _ hlen (qsort_sorted _),
    ((qsort_perm (row_xs edges y)).filter _).length_eq]
  unfold row_xs active_on
  rw [List.filter_map, List.length_map, List.filter_filter]
  have : (fun a => ((fun x => decide (x ≤ p)) ∘ fun e => intersection e y) a &&
          decide (a.y1 ≤ y ∧ y < a.y2))
        = (fun e => decide (e.y1 ≤ y ∧ y < e.y2 ∧ intersection e y ≤ p)) := by
    funext e
    simp only [Function.comp, Bool.decide_and, Bool.and_comm, Bool.and_assoc]
  rw [this]

/-! ## Order of the calls, for every input -/

theorem emit_sorted (y : Int) : ∀ (n : Nat) (xs : List Int), xs.length ≤ n →
    xs.Sorted (fun a b => a ≤ b) →
    (∀ s ∈ emit y xs, s.y = y ∧ s.x1 ≤ s.x2 ∧ s.x1 ∈ xs ∧ s.x2 ∈ xs) ∧
      List.Chain' precedes (emit y xs)
  | 0, xs, h, _ => by
    have : xs = [] := List.length_eq_zero.1 (by omega)
    subst this
    simp [emit]
  | n + 1, [], _, _ => by simp [emit]
  | n + 1, [_], _, _ => by simp [emit]
  | n + 1, a :: b :: rest, h, hs => by
    have hs' : rest.Sorted (fun a b => a ≤ b) := (List.sorted_cons.1 (List.sorted_cons.1 hs).2).2
    have hab : a ≤ b := (List.sorted_cons.1 hs).1 b (List.mem_cons_self _ _)
    have hb : ∀ c ∈ rest, b ≤ c := (List.sorted_cons.1 (List.sorted_cons.1 hs).2).1
    obtain ⟨ih1, ih2⟩ := emit_sorted y n rest (by simp at h; omega) hs'
    simp only [emit]
    constructor
    · intro s hs
      rcases List.mem_cons.1 hs with rfl | hs
      · simp [hab]
      · obtain ⟨h1, h2, h3, h4⟩ := ih1 s hs
        exact ⟨h1, h2, List.mem_cons_of_mem _ (List.mem_cons_of_mem _ h3),
          List.mem_cons_of_mem _ (List.mem_cons_of_mem _ h4)⟩
    · rw [List.chain'_cons']
      refine ⟨?_, ih2⟩
      intro t ht
      have htm : t ∈ emit y rest := List.mem_of_mem_head? ht
      obtain ⟨h1, _, h3, _⟩ := ih1 t htm
      right
      refine ⟨h1.symm, ?_, ?_⟩
      · exact le_trans hab (hb _ h3)
      · exact hb _ h3

theorem sweep_ordered : ∀ (fuel : Nat) (y : Int) (edges : List edge),
    (∀ s ∈ (sweep fuel y edges).calls, y ≤ s.y ∧ s.x1 ≤ s.x2) ∧
      List.Chain' precedes (sweep fuel y edges).calls
  | 0, _, _ => by simp [sweep]
  | fuel + 1, y, edges => by
    obtain ⟨ih1, ih2⟩ := sweep_ordered fuel (y + 1) (edges.map (update_active y))
    obtain ⟨e1, e2⟩ := emit_sorted y _ (qsort (collect (edges.map (update_active y)) y))
      le_rfl (qsort_sorted _)
    simp only [sweep]
    split_ifs with hodd
    · simp
    · simp only
      constructor
      · intro s hs
        rcases List.mem_append.1 hs with hs | hs
        · have := e1 s hs
          exact ⟨by omega, this.2.1⟩
        · have := ih1 s hs
          exact ⟨by omega, this.2⟩
      · apply List.Chain'.append e2 ih2
        intro s hs t ht
        have h1 := (e1 s (List.mem_of_mem_getLast? hs)).1
        have h2 := (ih1 t (List.mem_of_mem_head? ht)).1
        left
        omega

theorem fill_polygon_calls (heap : edge) (coords : Nat → Int) (npoints : Int) :
    (fill_polygon heap coords npoints).calls = [] ∨
      ∃ fuel y edges, (fill_polygon heap coords npoints).calls = (sweep fuel y edges).calls := by
  unfold fill_polygon
  by_cases h1 : npoints < 3
  · left; simp [h1]
  · by_cases h2 : ((edge_table coords npoints.toNat).any
        fun e => decide (slope_divisor e.y1 e.y2 = 0)) = true
    · left; simp [h1, h2]
    · right
      simp only [h1, h2, if_false]
      exact ⟨_, _, _, rfl⟩

/-! ## Evaluating small polygons -/

theorem qsort_pair (a b : Int) (h : a ≤ b) : qsort [b, a] = [a, b] := by
  have h1 : (qsort [b, a]).Perm [a, b] := (qsort_perm _).trans (List.Perm.swap a b [])
  have h2 : [a, b].Sorted (fun a b => a ≤ b) := by simp [h]
  exact List.eq_of_perm_of_sorted h1 (qsort_sorted _) h2

theorem rows_from_succ : ∀ (n : Nat) (a : Int),
    rows_from a (n + 1) = rows_from a n ++ [a + n] := by
  intro n
  induction n with
  | zero => intro a; simp [rows_from]
  | succ n ih =>
    intro a
    rw [rows_from, ih (a + 1)]
    simp [rows_from, add_assoc, add_comm (1 : Int)]

theorem flatMap_rows_from (f : Int → List hline) (g : Int → hline) :
    ∀ (n : Nat) (a : Int), (∀ y, a ≤ y → y < a + n → f y = [g y]) →
      (rows_from a n).flatMap f = (rows_from a n).map g := by
  intro n
  induction n with
  | zero => intro a _; rfl
  | succ n ih =>
    intro a h
    simp only [rows_from, List.flatMap_cons, List.map_cons]
    rw [h a le_rfl (by push_cast; omega), ih (a + 1) (fun y h1 h2 => h y (by omega) (by push_cast; omega))]
    rfl

theorem wrap32_zero : wrap32 0 = 0 := by decide

theorem wrap64_zero : wrap64 0 = 0 := by decide

theorem fp_div_zero (d : Int) (z : Nat) : fp_div 0 d z = 0 := by
  simp [fp_div, shl64, wrap64_zero]

theorem shl32_zero (k : Nat) : shl32 0 k = 0 := by
  simp [shl32, wrap32_zero]

/-- The intersection of a vertical edge (slope 0) is its `x1`. -/
theorem intersection_vertical (e : edge) (y : Int) (hs : e.inverse_slope = 0)
    (h1 : -2147483648 ≤ e.x1) (h2 : e.x1 < 2147483648) : intersection e y = e.x1 := by
  unfold intersection offset
  rw [hs, zero_mul, wrap64_zero, zero_add, ONEHALF_eq, wrap64_of_range (by norm_num) (by norm_num)]
  have : (32768 : Int) >>> FRACBITS = 0 := by decide
  rw [this, add_zero, wrap32_of_range h1 h2]

theorem rectangle_table (x0 x1 y0 y1 : Int) (hy : y0 < y1) :
    edge_table (coords_of [(x0, y0), (x1, y0), (x1, y1), (x0, y1)]) 4
      = [⟨x1, y0, x1, y1, false, 0⟩, ⟨x0, y0, x0, y1, false, 0⟩] := by
  have h := edge_table_eq [(x0, y0), (x1, y0), (x1, y1), (x0, y1)]
  simp only [List.length_cons, List.length_nil] at h
  rw [h]
  have h1 : y0 ≠ y1 := by omega
  have h2 : y1 ≠ y0 := by omega
  have h3 : ¬ y0 > y1 := by omega
  have h4 : y1 > y0 := hy
  simp [cyclic_pairs_cons, pair_edge, make_edge, h1, h2, h3, h4,
    wrap32_zero, shl32_zero, fp_div_zero]

/-! ## The rows that receive a span -/

theorem foldl_min_le_iff (y : Int) : ∀ (l : List Int) (m : Int),
    l.foldl min m ≤ y ↔ m ≤ y ∨ ∃ a ∈ l, a ≤ y := by
  intro l
  induction l with
  | nil => intro m; simp
  | cons b l ih =>
    intro m
    rw [List.foldl_cons, ih, min_le_iff]
    simp only [List.mem_cons, exists_eq_or_imp]
    tauto

theorem lt_foldl_max_iff (y : Int) : ∀ (l : List Int) (m : Int),
    y < l.foldl max m ↔ y < m ∨ ∃ a ∈ l, y < a := by
  intro l
  induction l with
  | nil => intro m; simp
  | cons b l ih =>
    intro m
    rw [List.foldl_cons, ih, lt_max_iff]
    simp only [List.mem_cons, exists_eq_or_imp]
    tauto

theorem vertex_min_y_le_iff (v : List (Int × Int)) (hv : v ≠ []) (y : Int) :
    vertex_min_y v ≤ y ↔ ∃ a ∈ v, a.2 ≤ y := by
  unfold vertex_min_y
  rw [foldl_min_le_iff]
  cases v with
  | nil => exact absurd rfl hv
  | cons a t =>
    have hex : ∀ P : Int → Prop, (∃ c ∈ t.map Prod.snd, P c) ↔ ∃ q ∈ t, P q.2 := by
      intro P
      simp only [List.mem_map, exists_exists_and_eq_and]
    simp only [List.headD_cons, List.map_cons, List.mem_cons, exists_eq_or_imp, hex]
    tauto

theorem lt_vertex_max_y_iff (v : List (Int × Int)) (hv : v ≠ []) (y : Int) :
    y < vertex_max_y v ↔ ∃ a ∈ v, y < a.2 := by
  unfold vertex_max_y
  rw [lt_foldl_max_iff]
  cases v with
  | nil => exact absurd rfl hv
  | cons a t =>
    have hex : ∀ P : Int → Prop, (∃ c ∈ t.map Prod.snd, P c) ↔ ∃ q ∈ t, P q.2 := by
      intro P
      simp only [List.mem_map, exists_exists_and_eq_and]
    simp only [List.headD_cons, List.map_cons, List.mem_cons, exists_eq_or_imp, hex]
    tauto

theorem chain_same_side (y : Int) (z : Int × Int) :
    ∀ (t : List (Int × Int)) (a : Int × Int),
      (∀ p ∈ (a :: t).zip (t ++ [z]), crosses y p = false) →
      ∀ b ∈ t, decide (b.2 ≤ y) = decide (a.2 ≤ y) := by
  intro t
  induction t with
  | nil => intro a _ b hb; simp at hb
  | cons c t ih =>
    intro a h b hb
    simp only [List.cons_append, List.zip_cons_cons, List.mem_cons, forall_eq_or_imp] at h
    have hac : decide (c.2 ≤ y) = decide (a.2 ≤ y) := by
      have := h.1
      unfold crosses at this
      dsimp only at this
      by_cases h1 : a.2 ≤ y <;> by_cases h2 : c.2 ≤ y <;> simp [h1, h2] at this ⊢
    rcases List.mem_cons.1 hb with rfl | hb
    · exact hac
    · rw [ih c h.2 b hb, hac]

/-- Some pair of cyclically consecutive vertices crosses the line below row
`y+1` exactly when some vertex is on or above row `y` and some vertex is below. -/
theorem exists_crossing_iff (y : Int) (v : List (Int × Int)) :
    (∃ p ∈ cyclic_pairs v, crosses y p = true) ↔ (∃ a ∈ v, a.2 ≤ y) ∧ (∃ b ∈ v, y < b.2) := by
  constructor
  · rintro ⟨p, hp, hc⟩
    have hz := List.of_mem_zip (show (p.1, p.2) ∈ v.zip (v.rotate 1) from hp)
    have h1 : p.1 ∈ v := hz.1
    have h2 : p.2 ∈ v := List.mem_rotate.1 hz.2
    unfold crosses at hc
    by_cases c1 : p.1.2 ≤ y <;> by_cases c2 : p.2.2 ≤ y <;> simp [c1, c2] at hc
    · exact ⟨⟨p.1, h1, c1⟩, ⟨p.2, h2, by omega⟩⟩
    · exact ⟨⟨p.2, h2, c2⟩, ⟨p.1, h1, by omega⟩⟩
  · rintro ⟨⟨a, ha, hay⟩, ⟨b, hb, hby⟩⟩
    by_contra hno
    have hall : ∀ p ∈ cyclic_pairs v, crosses y p = false := by
      intro p hp
      by_contra hc
      exact hno ⟨p, hp, by simpa using hc⟩
    cases v with
    | nil => simp at ha
    | cons c t =>
      rw [cyclic_pairs_cons] at hall
      have hside := chain_same_side y c t c hall
      have sa : decide (a.2 ≤ y) = decide (c.2 ≤ y) := by
        rcases List.mem_cons.1 ha with rfl | ha
        · rfl
        · exact hside a ha
      have sb : decide (b.2 ≤ y) = decide (c.2 ≤ y) := by
        rcases List.mem_cons.1 hb with rfl | hb
        · rfl
        · exact hside b hb
      have hb2 : ¬ b.2 ≤ y := by omega
      rw [← sb] at sa
      simp [hay, hb2] at sa

theorem emit_eq_nil_iff (y : Int) (xs : List Int) (h : xs.length % 2 = 0) :
    emit y xs = [] ↔ xs = [] := by
  cases xs with
  | nil => simp [emit]
  | cons a t =>
    cases t with
    | nil => simp at h
    | cons b t => simp [emit]

theorem exists_row_call_iff (v : List (Int × Int)) (y : Int) :
    (∃ s, s ∈ row_calls (edge_table (coords_of v) v.length) y) ↔
      (∃ a ∈ v, a.2 ≤ y) ∧ (∃ b ∈ v, y < b.2) := by
  rw [← exists_crossing_iff]
  have hlen := filter_active_length y (cyclic_pairs v)
  rw [← edge_table_eq] at hlen
  have h1 : (∃ s, s ∈ row_calls (edge_table (coords_of v) v.length) y) ↔
      row_xs (edge_table (coords_of v) v.length) y ≠ [] := by
    have h0 : (∃ s, s ∈ row_calls (edge_table (coords_of v) v.length) y) ↔
        row_calls (edge_table (coords_of v) v.length) y ≠ [] :=
      ⟨fun ⟨s, hs⟩ => List.ne_nil_of_mem hs, List.exists_mem_of_ne_nil _⟩
    rw [h0, row_calls, ne_eq,
      emit_eq_nil_iff y _ (by rw [qsort_length]; exact row_xs_even v y)]
    constructor
    · intro h hnil; apply h; rw [hnil]; rfl
    · intro h hnil; apply h
      have := qsort_length (row_xs (edge_table (coords_of v) v.length) y)
      rw [hnil] at this
      exact List.length_eq_zero.1 this.symm
  have h2 : row_xs (edge_table (coords_of v) v.length) y ≠ [] ↔
      0 < (row_xs (edge_table (coords_of v) v.length) y).length := by
    rw [List.length_pos]
  have h3 : (∃ p ∈ cyclic_pairs v, crosses y p = true) ↔
      0 < ((cyclic_pairs v).filter (crosses y)).length := by
    rw [List.length_pos, ne_eq, List.filter_eq_nil_iff]
    push_neg
    rfl
  rw [h1, h2, h3, row_xs_length, hlen]

/-! ## Reversing the vertex order -/

theorem cyclic_pairs_reverse (v : List (Int × Int)) (h : 2 ≤ v.length) :
    (cyclic_pairs v.reverse).Perm ((cyclic_pairs v).map Prod.swap) := by
  have h1 : 1 % v.length = 1 := Nat.mod_eq_of_lt (by omega)
  have e1 : v.reverse.rotate 1 = (v.rotate (v.length - 1)).reverse := by
    rw [List.rotate_reverse, h1]
  have e2 : v = (v.rotate 1).rotate (v.length - 1) := by
    rw [List.rotate_rotate, show 1 + (v.length - 1) = v.length by omega, List.rotate_length]
  have e3 : (v.rotate (v.length - 1)).zip v = (cyclic_pairs v).rotate (v.length - 1) := by
    unfold cyclic_pairs List.zip
    rw [List.zipWith_rotate_distrib _ _ _ _ (by simp), ← e2]
  have e4 : cyclic_pairs v.reverse
      = (((cyclic_pairs v).rotate (v.length - 1)).map Prod.swap).reverse := by
    rw [← e3, List.zip_swap]
    unfold cyclic_pairs
    rw [e1]
    unfold List.zip
    rw [List.reverse_zipWith (by simp)]
  rw [e4]
  exact (List.reverse_perm _).trans ((List.rotate_perm _ _).map _)

theorem make_edge_swap (x1 y1 x2 y2 : Int) (h : y1 ≠ y2) :
    make_edge x2 y2 x1 y1 = make_edge x1 y1 x2 y2 := by
  unfold make_edge
  by_cases h1 : y1 > y2
  · have h2 : ¬ y2 > y1 := by omega
    simp [h1, h2]
  · have h2 : y2 > y1 := by omega
    simp [h1, h2]

theorem pair_edge_swap (p : (Int × Int) × (Int × Int)) : pair_edge p.swap = pair_edge p := by
  unfold pair_edge
  by_cases h : p.1.2 = p.2.2
  · simp [h]
  · have h2 : ¬ p.2.2 = p.1.2 := fun h3 => h h3.symm
    simp [h, h2, make_edge_swap _ _ _ _ h]

theorem edge_table_reverse (v : List (Int × Int)) (h : 2 ≤ v.length) :
    (edge_table (coords_of v.reverse) v.reverse.length).Perm
      (edge_table (coords_of v) v.length) := by
  rw [edge_table_eq, edge_table_eq]
  have h1 := (cyclic_pairs_reverse v h).filterMap pair_edge
  rw [List.filterMap_map] at h1
  have h2 : pair_edge ∘ Prod.swap = pair_edge := by
    funext p; exact pair_edge_swap p
  rw [h2] at h1
  exact h1

/-! ## The run depends on the edge table only up to its order -/

theorem collect_perm {es1 es2 : List edge} (h : es1.Perm es2) (y : Int) :
    (collect es1 y).Perm (collect es2 y) :=
  h.filterMap _

theorem sweep_perm : ∀ (fuel : Nat) (y : Int) (es1 es2 : List edge), es1.Perm es2 →
    (sweep fuel y es1).calls = (sweep fuel y es2).calls ∧
      (sweep fuel y es1).fault = (sweep fuel y es2).fault
  | 0, _, _, _, _ => ⟨rfl, rfl⟩
  | fuel + 1, y, es1, es2, h => by
    have hm : (es1.map (update_active y)).Perm (es2.map (update_active y)) := h.map _
    have hc := collect_perm hm y
    obtain ⟨ih1, ih2⟩ := sweep_perm fuel (y + 1) _ _ hm
    simp only [sweep, hc.length_eq, qsort_eq_of_perm hc]
    split_ifs
    · exact ⟨rfl, rfl⟩
    · exact ⟨by rw [ih1], ih2⟩

theorem find_min_max_y_perm (heap1 heap2 : edge) {es1 es2 : List edge} (h : es1.Perm es2)
    (hne : es2 ≠ []) : find_min_max_y heap1 es1 = find_min_max_y heap2 es2 := by
  have hne1 : es1 ≠ [] := fun h0 => hne (by rw [h0] at h; exact h.symm.eq_nil)
  obtain ⟨⟨a1, e1, he1, a2⟩, ⟨a3, e3, he3, a4⟩⟩ := find_min_max_y_spec heap1 es1 hne1
  obtain ⟨⟨b1, f1, hf1, b2⟩, ⟨b3, f3, hf3, b4⟩⟩ := find_min_max_y_spec heap2 es2 hne
  have c1 := a1 f1 (h.mem_iff.2 hf1)
  have c2 := b1 e1 (h.mem_iff.1 he1)
  have c3 := a3 f3 (h.mem_iff.2 hf3)
  have c4 := b3 e3 (h.mem_iff.1 he3)
  apply Prod.ext <;> omega

theorem fill_polygon_perm (heap1 heap2 : edge) (c1 c2 : Nat → Int) (n : Int)
    (h : (edge_table c1 n.toNat).Perm (edge_table c2 n.toNat))
    (hne : edge_table c2 n.toNat ≠ []) :
    (fill_polygon heap1 c1 n).calls = (fill_polygon heap2 c2 n).calls ∧
      (fill_polygon heap1 c1 n).fault = (fill_polygon heap2 c2 n).fault := by
  unfold fill_polygon
  by_cases h3 : n < 3
  · simp [h3]
  · have hany : (edge_table c1 n.toNat).any (fun e => decide (slope_divisor e.y1 e.y2 = 0))
        = (edge_table c2 n.toNat).any (fun e => decide (slope_divisor e.y1 e.y2 = 0)) := by
      rw [Bool.eq_iff_iff, List.any_eq_true, List.any_eq_true]
      exact ⟨fun ⟨e, he, hp⟩ => ⟨e, h.mem_iff.1 he, hp⟩, fun ⟨e, he, hp⟩ => ⟨e, h.mem_iff.2 he, hp⟩⟩
    have hmm := find_min_max_y_perm heap1 heap2 h hne
    obtain ⟨s1, s2⟩ := sweep_perm
      ((find_min_max_y heap2 (edge_table c2 n.toNat)).2
        - (find_min_max_y heap2 (edge_table c2 n.toNat)).1 + 1).toNat
      (find_min_max_y heap2 (edge_table c2 n.toNat)).1 _ _ h
    simp only [h3, if_false, hany, hmm, s1, s2]
    split_ifs <;> exact ⟨rfl, rfl⟩

/-! ## The fixed-point slope and the intersection on small coordinates -/

theorem intersection_eq_offset (e : edge) (y : Int) :
    intersection e y = wrap32 (e.x1 + offset e y) := rfl

theorem tdiv_pos_bounds (a b : Int) (hb : 0 < b) :
    (0 ≤ a → 0 ≤ a.tdiv b ∧ a.tdiv b * b ≤ a) ∧ (a ≤ 0 → a.tdiv b ≤ 0 ∧ a ≤ a.tdiv b * b) := by
  constructor
  · intro ha
    rw [Int.tdiv_eq_ediv ha (le_of_lt hb)]
    exact ⟨Int.ediv_nonneg ha (le_of_lt hb), Int.ediv_mul_le a (ne_of_gt hb)⟩
  · intro ha
    have hna : 0 ≤ -a := by omega
    have h1 : a.tdiv b = -((-a) / b) := by
      rw [← Int.tdiv_eq_ediv hna (le_of_lt hb), Int.neg_tdiv, neg_neg]
    have h2 := Int.ediv_nonneg hna (le_of_lt hb)
    have h3 := Int.ediv_mul_le (-a) (ne_of_gt hb)
    rw [h1]
    constructor
    · omega
    · rw [neg_mul]; omega

/-- The stored slope of an edge with `|x2 - x1| < 2^15` and `0 < y2 - y1 < 2^15`:
it has the sign of `x2 - x1` and `slope * (y2 - y1)` lies between 0 and
`(x2 - x1) * 2^16`. -/
theorem slope_bounds (x1 y1 x2 y2 : Int) (hx1 : -32768 < x2 - x1) (hx2 : x2 - x1 < 32768)
    (hy1 : y1 < y2) (hy2 : y2 - y1 < 32768) :
    (0 ≤ x2 - x1 →
      0 ≤ fp_div (shl32 (wrap32 (x2 - x1)) FRACBITS) (slope_divisor y1 y2) FRACBITS ∧
      fp_div (shl32 (wrap32 (x2 - x1)) FRACBITS) (slope_divisor y1 y2) FRACBITS * (y2 - y1)
        ≤ (x2 - x1) * 65536) ∧
    (x2 - x1 ≤ 0 →
      fp_div (shl32 (wrap32 (x2 - x1)) FRACBITS) (slope_divisor y1 y2) FRACBITS ≤ 0 ∧
      (x2 - x1) * 65536 ≤
        fp_div (shl32 (wrap32 (x2 - x1)) FRACBITS) (slope_divisor y1 y2) FRACBITS * (y2 - y1)) := by
  have hnum : shl32 (wrap32 (x2 - x1)) FRACBITS = (x2 - x1) * 65536 := by
    unfold shl32 FRACBITS
    rw [wrap32_of_range (n := x2 - x1) (by omega) (by omega),
      wrap32_of_range (by omega) (by omega)]
    norm_num
  have hnum2 : shl64 ((x2 - x1) * 65536) FRACBITS = (x2 - x1) * 4294967296 := by
    unfold shl64 FRACBITS
    rw [wrap64_of_range (by omega) (by omega)]
    ring
  rw [hnum, slope_divisor_of_small y1 y2 hy1 hy2]
  unfold fp_div
  rw [hnum2]
  obtain ⟨hp, hn⟩ := tdiv_pos_bounds ((x2 - x1) * 4294967296) ((y2 - y1) * 65536) (by omega)
  generalize ((x2 - x1) * 4294967296).tdiv ((y2 - y1) * 65536) = S at hp hn ⊢
  have hmul : S * ((y2 - y1) * 65536) = (S * (y2 - y1)) * 65536 := by ring
  rw [hmul] at hp hn
  have hH : 1 ≤ y2 - y1 := by omega
  constructor
  · intro hD
    obtain ⟨p1, p2⟩ := hp (by omega)
    have p3 : S ≤ S * (y2 - y1) := le_mul_of_one_le_right p1 hH
    rw [wrap64_of_range (by omega) (by omega)]
    exact ⟨p1, by omega⟩
  · intro hD
    obtain ⟨n1, n2⟩ := hn (by omega)
    have n3 : S * (y2 - y1) ≤ S := by
      have := le_mul_of_one_le_right (show 0 ≤ -S by omega) hH
      rw [neg_mul] at this
      omega
    rw [wrap64_of_range (by omega) (by omega)]
    exact ⟨n1, by omega⟩

/-- The offset the sweep adds to `x1` lies between 0 and `x2 - x1`. -/
theorem offset_bounds (e : edge) (y : Int)
    (hs : e.inverse_slope
      = fp_div (shl32 (wrap32 (e.x2 - e.x1)) FRACBITS) (slope_divisor e.y1 e.y2) FRACBITS)
    (hx1 : -32768 < e.x2 - e.x1) (hx2 : e.x2 - e.x1 < 32768)
    (hy2 : e.y2 - e.y1 < 32768) (h1 : e.y1 ≤ y) (h2 : y < e.y2) :
    min 0 (e.x2 - e.x1) ≤ offset e y ∧ offset e y ≤ max 0 (e.x2 - e.x1) := by
  obtain ⟨hp, hn⟩ := slope_bounds e.x1 e.y1 e.x2 e.y2 hx1 hx2 (by omega) hy2
  rw [← hs] at hp hn
  unfold offset
  rw [wrap32_of_range (n := y - e.y1) (by omega) (by omega), ONEHALF_eq,
    Int.shiftRight_eq_div_pow]
  have hk0 : 0 ≤ y - e.y1 := by omega
  have hkH : y - e.y1 ≤ e.y2 - e.y1 := by omega
  have h65 : ((2 ^ FRACBITS : Nat) : Int) = 65536 := by decide
  rw [h65]
  rcases le_total 0 (e.x2 - e.x1) with hD | hD
  · obtain ⟨p1, p2⟩ := hp hD
    have q1 : 0 ≤ e.inverse_slope * (y - e.y1) := mul_nonneg p1 hk0
    have q2 : e.inverse_slope * (y - e.y1) ≤ e.inverse_slope * (e.y2 - e.y1) :=
      mul_le_mul_of_nonneg_left hkH p1
    rw [wrap64_of_range (n := e.inverse_slope * (y - e.y1)) (by omega) (by omega),
      wrap64_of_range (by omega) (by omega), min_eq_left hD, max_eq_right hD]
    omega
  · obtain ⟨n1, n2⟩ := hn hD
    have q1 : e.inverse_slope * (y - e.y1) ≤ 0 := mul_nonpos_of_nonpos_of_nonneg n1 hk0
    have q2 : e.inverse_slope * (e.y2 - e.y1) ≤ e.inverse_slope * (y - e.y1) :=
      mul_le_mul_of_nonpos_left hkH n1
    rw [wrap64_of_range (n := e.inverse_slope * (y - e.y1)) (by omega) (by omega),
      wrap64_of_range (by omega) (by omega), min_eq_right hD, max_eq_left hD]
    omega

/-! ## Translating the polygon -/

theorem edge_ok_of_in_range (v : List (Int × Int)) (hb : in_range v) :
    ∀ e ∈ edge_table (coords_of v) v.length, edge_ok e := by
  intro e he
  have hlt := edge_table_lt v e he
  obtain ⟨a, ha, b, hb', _, rfl⟩ := mem_edge_table_ends he
  have ra := hb a ha
  have rb := hb b hb'
  refine ⟨hlt, rfl, ?_, ?_, ?_, ?_⟩
  · rw [make_edge_x1]; split_ifs <;> omega
  · rw [make_edge_x2]; split_ifs <;> omega
  · rw [make_edge_y1]; split_ifs <;> omega
  · rw [make_edge_y2]; split_ifs <;> omega

/-- The intersection of an edge with small coordinates lies between its ends,
and no reduction to 32 bits takes place. -/
theorem intersection_of_ok (e : edge) (y : Int) (hok : edge_ok e) (h1 : e.y1 ≤ y)
    (h2 : y < e.y2) :
    intersection e y = e.x1 + offset e y ∧
      min e.x1 e.x2 ≤ intersection e y ∧ intersection e y ≤ max e.x1 e.x2 := by
  obtain ⟨_, hs, hx1, hx2, hy1, hy2⟩ := hok
  obtain ⟨o1, o2⟩ := offset_bounds e y hs (by omega) (by omega) (by omega) h1 h2
  have hmin : min 0 (e.x2 - e.x1) = min e.x1 e.x2 - e.x1 := by
    rcases le_total e.x1 e.x2 with h | h
    · rw [min_eq_left h, min_eq_left (by omega)]; omega
    · rw [min_eq_right h, min_eq_right (by omega)]
  have hmax : max 0 (e.x2 - e.x1) = max e.x1 e.x2 - e.x1 := by
    rcases le_total e.x1 e.x2 with h | h
    · rw [max_eq_right h, max_eq_right (by omega)]
    · rw [max_eq_left h, max_eq_left (by omega)]; omega
  rw [hmin] at o1
  rw [hmax] at o2
  have m1 : -16383 ≤ min e.x1 e.x2 := le_min hx1.1 hx2.1
  have m2 : max e.x1 e.x2 ≤ 16383 := max_le hx1.2 hx2.2
  rw [intersection_eq_offset, wrap32_of_range (by omega) (by omega)]
  exact ⟨rfl, by omega, by omega⟩

theorem make_edge_shift (dx dy x1 y1 x2 y2 : Int) :
    make_edge (x1 + dx) (y1 + dy) (x2 + dx) (y2 + dy)
      = shift_edge dx dy (make_edge x1 y1 x2 y2) := by
  unfold make_edge shift_edge slope_divisor
  by_cases h : y1 > y2
  · have h' : y1 + dy > y2 + dy := by omega
    simp only [h, h', decide_True, if_true, add_sub_add_right_eq_sub]
  · have h' : ¬ y1 + dy > y2 + dy := by omega
    simp only [h, h', decide_False, if_false, add_sub_add_right_eq_sub]
    simp

theorem pair_edge_shift (dx dy : Int) (p : (Int × Int) × (Int × Int)) :
    pair_edge (Prod.map (shift_vertex dx dy) (shift_vertex dx dy) p)
      = (pair_edge p).map (shift_edge dx dy) := by
  unfold pair_edge shift_vertex
  by_cases h : p.1.2 = p.2.2
  · simp [h]
  · simp [h, make_edge_shift]

theorem cyclic_pairs_map (f : Int × Int → Int × Int) (v : List (Int × Int)) :
    cyclic_pairs (v.map f) = (cyclic_pairs v).map (Prod.map f f) := by
  unfold cyclic_pairs
  rw [← List.map_rotate, List.zip_map]

theorem edge_table_translate (dx dy : Int) (v : List (Int × Int)) :
    edge_table (coords_of (translate dx dy v)) (translate dx dy v).length
      = (edge_table (coords_of v) v.length).map (shift_edge dx dy) := by
  rw [edge_table_eq, edge_table_eq]
  unfold translate
  rw [cyclic_pairs_map, List.filterMap_map, List.map_filterMap]
  apply List.filterMap_congr
  intro p _
  simp only [Function.comp, pair_edge_shift]

theorem find_min_max_y_shift (heap1 heap2 : edge) (dx dy : Int) (es : List edge)
    (hne : es ≠ []) :
    find_min_max_y heap1 (es.map (shift_edge dx dy))
      = ((find_min_max_y heap2 es).1 + dy, (find_min_max_y heap2 es).2 + dy) := by
  have hne1 : es.map (shift_edge dx dy) ≠ [] := by simpa using hne
  obtain ⟨⟨a1, e1, he1, a2⟩, ⟨a3, e3, he3, a4⟩⟩ :=
    find_min_max_y_spec heap1 (es.map (shift_edge dx dy)) hne1
  obtain ⟨⟨b1, f1, hf1, b2⟩, ⟨b3, f3, hf3, b4⟩⟩ := find_min_max_y_spec heap2 es hne
  have c1 := a1 _ (List.mem_map_of_mem (shift_edge dx dy) hf1)
  have c3 := a3 _ (List.mem_map_of_mem (shift_edge dx dy) hf3)
  obtain ⟨g1, hg1, rfl⟩ := List.mem_map.1 he1
  obtain ⟨g3, hg3, rfl⟩ := List.mem_map.1 he3
  have c2 := b1 g1 hg1
  have c4 := b3 g3 hg3
  simp only [shift_edge] at c1 c3 a2 a4
  apply Prod.ext <;> dsimp only <;> omega

theorem rows_from_shift (dy : Int) : ∀ (n : Nat) (a : Int),
    rows_from (a + dy) n = (rows_from a n).map (fun y => y + dy) := by
  intro n
  induction n with
  | zero => intro a; rfl
  | succ n ih =>
    intro a
    simp only [rows_from, List.map_cons]
    rw [show a + dy + 1 = a + 1 + dy by omega, ih]

theorem emit_shift (dx dy y : Int) : ∀ (n : Nat) (xs : List Int), xs.length ≤ n →
    emit (y + dy) (xs.map (fun x => x + dx)) = (emit y xs).map (shift_call dx dy)
  | 0, xs, h => by
    have : xs = [] := List.length_eq_zero.1 (by omega)
    subst this
    rfl
  | n + 1, [], _ => rfl
  | n + 1, [_], _ => rfl
  | n + 1, a :: b :: rest, h => by
    simp only [List.map_cons, emit]
    rw [emit_shift dx dy y n rest (by simp at h; omega)]
    rfl

theorem qsort_shift (dx : Int) (xs : List Int) :
    qsort (xs.map (fun x => x + dx)) = (qsort xs).map (fun x => x + dx) := by
  apply List.eq_of_perm_of_sorted _ (qsort_sorted _)
  · have h := qsort_sorted xs
    unfold List.Sorted at h ⊢
    rw [List.pairwise_map]
    exact h.imp (fun {a b} hab => by omega)
  · exact (qsort_perm _).trans ((qsort_perm xs).map _).symm

theorem row_xs_shift (dx dy y : Int) (es : List edge) (h1 : ∀ e ∈ es, edge_ok e)
    (h2 : ∀ e ∈ es, edge_ok (shift_edge dx dy e)) :
    row_xs (es.map (shift_edge dx dy)) (y + dy) = (row_xs es y).map (fun x => x + dx) := by
  unfold row_xs
  have hact : ((fun e => active_on e (y + dy)) ∘ shift_edge dx dy) = fun e => active_on e y := by
    funext e
    simp only [Function.comp, active_on, shift_edge]
    congr 1
    apply propext
    constructor <;> intro h <;> omega
  rw [List.filter_map, List.map_map, List.map_map, hact]
  apply List.map_congr_left
  intro e he
  obtain ⟨hmem, hon⟩ := List.mem_filter.1 he
  have hon' : e.y1 ≤ y ∧ y < e.y2 := by simpa [active_on] using hon
  have i1 := (intersection_of_ok e y (h1 e hmem) hon'.1 hon'.2).1
  have i2 := (intersection_of_ok (shift_edge dx dy e) (y + dy) (h2 e hmem)
    (by simp only [shift_edge]; omega) (by simp only [shift_edge]; omega)).1
  have hoff : offset (shift_edge dx dy e) (y + dy) = offset e y := by
    simp only [offset, shift_edge, add_sub_add_right_eq_sub]
  simp only [Function.comp]
  rw [i1, i2, hoff]
  simp only [shift_edge]
  ring

theorem row_calls_shift (dx dy y : Int) (es : List edge) (h1 : ∀ e ∈ es, edge_ok e)
    (h2 : ∀ e ∈ es, edge_ok (shift_edge dx dy e)) :
    row_calls (es.map (shift_edge dx dy)) (y + dy) = (row_calls es y).map (shift_call dx dy) := by
  unfold row_calls
  rw [row_xs_shift dx dy y es h1 h2, qsort_shift, emit_shift dx dy y _ _ le_rfl]

theorem fill_fault_of_in_range (heap : edge) (v : List (Int × Int)) (h3 : 3 ≤ v.length)
    (hne : edge_table (coords_of v) v.length ≠ []) (hb : in_range v) :
    (fill heap v).fault = none := by
  rw [fill_run heap v h3 (no_trap_of_in_range v hb)]
  obtain ⟨_, ⟨_, e, he, hmax⟩⟩ := find_min_max_y_spec heap _ hne
  have hok := edge_ok_of_in_range v hb e he
  have : (find_min_max_y heap (edge_table (coords_of v) v.length)).2 ≠ INT_MAX := by
    rw [hmax]
    unfold INT_MAX
    have := hok.2.2.2.2.2.2
    omega
  simp [this]

/-! ## The count of intersections on the rows of the sweep -/

/-- On every row the sweep visits, for every polygon of at least 3 vertices, the
intersections collected are even in number, and the run never stops at the
`assert`. -/
theorem fill_rows_even (heap : edge) (v : List (Int × Int)) (h3 : 3 ≤ v.length) :
    (∀ r ∈ (fill heap v).rows, r.intersections.length % 2 = 0) ∧
      (fill heap v).fault ≠ some Fault.assertion := by
  by_cases hdiv : no_trap (edge_table (coords_of v) v.length)
  · rw [fill_run heap v h3 hdiv]
    constructor
    · intro r hr
      simp only [List.mem_map] at hr
      obtain ⟨y, _, rfl⟩ := hr
      exact row_xs_even v y
    · dsimp only
      split_ifs <;> simp
  · have hlen : ¬ ((v.length : Int) < 3) := by omega
    unfold no_trap at hdiv
    have hany : (edge_table (coords_of v) v.length).any
        (fun e => decide (slope_divisor e.y1 e.y2 = 0)) = true := by
      simpa using hdiv
    simp only [fill, fill_polygon, hlen, if_false, Int.toNat_ofNat, hany, if_true]
    simp

/-! ## Rotating the vertex order -/

theorem cyclic_pairs_rotate (v : List (Int × Int)) (k : Nat) :
    cyclic_pairs (v.rotate k) = (cyclic_pairs v).rotate k := by
  unfold cyclic_pairs List.zip
  rw [List.zipWith_rotate_distrib _ _ _ _ (by simp), List.rotate_rotate, List.rotate_rotate,
    Nat.add_comm]

theorem edge_table_rotate (v : List (Int × Int)) (k : Nat) :
    (edge_table (coords_of (v.rotate k)) (v.rotate k).length).Perm
      (edge_table (coords_of v) v.length) := by
  rw [edge_table_eq, edge_table_eq, cyclic_pairs_rotate]
  exact (List.rotate_perm _ _).filterMap _

/-! ## Polygons without any stored edge -/

theorem sweep_nil : ∀ (fuel : Nat) (y : Int), (sweep fuel y []).calls = []
  | 0, _ => rfl
  | fuel + 1, y => by
    have ih := sweep_nil fuel (y + 1)
    simp [sweep, collect, qsort, emit, ih]

theorem edge_table_of_flat (v : List (Int × Int)) (hall : ∀ a ∈ v, ∀ b ∈ v, a.2 = b.2) :
    edge_table (coords_of v) v.length = [] := by
  rw [edge_table_eq, List.filterMap_eq_nil_iff]
  intro p hp
  have hz := List.of_mem_zip (show (p.1, p.2) ∈ v.zip (v.rotate 1) from hp)
  have := hall p.1 hz.1 p.2 (List.mem_rotate.1 hz.2)
  simp [pair_edge, this]

/-! ## The flags against the flag-free reference -/

theorem fill_of_trap (heap : edge) (v : List (Int × Int)) (h3 : 3 ≤ v.length)
    (hdiv : ¬ no_trap (edge_table (coords_of v) v.length)) :
    fill heap v = ⟨[], [], some Fault.division_by_zero⟩ := by
  have hlen : ¬ ((v.length : Int) < 3) := by omega
  unfold no_trap at hdiv
  have hany : (edge_table (coords_of v) v.length).any
      (fun e => decide (slope_divisor e.y1 e.y2 = 0)) = true := by
    simpa using hdiv
  simp only [fill, fill_polygon, hlen, if_false, Int.toNat_ofNat, hany, if_true]

theorem mem_set_flags {e : edge} {y : Int} {es : List edge} (h : e ∈ set_flags y es) :
    e.active = decide (e.y1 ≤ y ∧ y < e.y2) := by
  unfold set_flags at h
  obtain ⟨e0, _, rfl⟩ := List.mem_map.1 h
  rfl

/-! ## Consecutive calls -/

theorem consecutive_of_chain' {R : hline → hline → Prop} :
    ∀ (l : List hline), List.Chain' R l → consecutive R l
  | [], _ => fun i s t hs _ => by simp at hs
  | [a], _ => fun i s t _ ht => by simp at ht
  | a :: b :: l, h => fun i s t hs ht => by
    obtain ⟨h1, h2⟩ := List.chain'_cons.1 h
    cases i with
    | zero =>
      simp at hs ht
      subst hs
      subst ht
      exact h1
    | succ i =>
      rw [List.getElem?_cons_succ] at hs ht
      exact consecutive_of_chain' (b :: l) h2 i s t hs ht

/-! ## The horizontal bounding box -/

theorem offset_at_start (e : edge) : offset e e.y1 = 0 := by
  unfold offset
  rw [sub_self, wrap32_zero, mul_zero, wrap64_zero, zero_add, ONEHALF_eq,
    wrap64_of_range (by norm_num) (by norm_num)]
  decide

theorem intersection_at_start (e : edge) (h : is_int e.x1) : intersection e e.y1 = e.x1 := by
  rw [intersection_eq_offset, offset_at_start, add_zero, wrap32_of_range h.1 h.2]

theorem intersection_in_box (e : edge) (y : Int)
    (hs : e.inverse_slope
      = fp_div (shl32 (wrap32 (e.x2 - e.x1)) FRACBITS) (slope_divisor e.y1 e.y2) FRACBITS)
    (hx1 : -32768 < e.x2 - e.x1) (hx2 : e.x2 - e.x1 < 32768)
    (hy2 : e.y2 - e.y1 < 32768) (h1 : e.y1 ≤ y) (h2 : y < e.y2)
    (hi1 : is_int e.x1) (hi2 : is_int e.x2) :
    intersection e y = e.x1 + offset e y ∧
      min e.x1 e.x2 ≤ intersection e y ∧ intersection e y ≤ max e.x1 e.x2 := by
  obtain ⟨o1, o2⟩ := offset_bounds e y hs hx1 hx2 hy2 h1 h2
  unfold is_int at hi1 hi2
  have hbox : min e.x1 e.x2 ≤ e.x1 + offset e y ∧ e.x1 + offset e y ≤ max e.x1 e.x2 := by
    rcases le_total e.x1 e.x2 with h | h
    · have a1 : min 0 (e.x2 - e.x1) = 0 := min_eq_left (by omega)
      have a2 : max 0 (e.x2 - e.x1) = e.x2 - e.x1 := max_eq_right (by omega)
      rw [a1] at o1
      rw [a2] at o2
      rw [min_eq_left h, max_eq_right h]
      omega
    · have a1 : min 0 (e.x2 - e.x1) = e.x2 - e.x1 := min_eq_right (by omega)
      have a2 : max 0 (e.x2 - e.x1) = 0 := max_eq_left (by omega)
      rw [a1] at o1
      rw [a2] at o2
      rw [min_eq_right h, max_eq_left h]
      omega
  have m1 : -2147483648 ≤ min e.x1 e.x2 := le_min hi1.1 hi2.1
  have m2 : max e.x1 e.x2 < 2147483648 := max_lt hi1.2 hi2.2
  rw [intersection_eq_offset, wrap32_of_range (by omega) (by omega)]
  exact ⟨rfl, hbox⟩

theorem vertex_min_x_le (v : List (Int × Int)) (a : Int × Int) (ha : a ∈ v) :
    vertex_min_x v ≤ a.1 := by
  unfold vertex_min_x
  rw [foldl_min_le_iff]
  right
  exact ⟨a.1, List.mem_map_of_mem Prod.fst ha, le_rfl⟩

theorem le_vertex_max_x (v : List (Int × Int)) (a : Int × Int) (ha : a ∈ v) :
    a.1 ≤ vertex_max_x v := by
  by_contra hcon
  have hlt : vertex_max_x v < a.1 := by omega
  have h := (lt_foldl_max_iff (vertex_max_x v) (v.map Prod.fst) (v.headD (0, 0)).1).2
    (Or.inr ⟨a.1, List.mem_map_of_mem Prod.fst ha, hlt⟩)
  unfold vertex_max_x at h
  exact lt_irrefl _ h

theorem no_trap_of_small (edges : List edge) (hlt : ∀ e ∈ edges, e.y1 < e.y2)
    (hsmall : small_edges edges) : no_trap edges := by
  unfold no_trap
  rw [List.any_eq_false]
  intro e he
  rw [slope_divisor_of_small _ _ (hlt e he) (hsmall e he).2]
  have := hlt e he
  simp
  omega

/-! ## The fixed-point interpolation against the exact intersection -/

theorem tdiv_mul_right_cancel (a b c : Int) (hb : 0 < b) (hc : 0 < c) :
    (a * c).tdiv (b * c) = a.tdiv b := by
  rcases le_total 0 a with ha | ha
  · rw [Int.tdiv_eq_ediv (mul_nonneg ha (le_of_lt hc)) (le_of_lt (mul_pos hb hc)),
      Int.tdiv_eq_ediv ha (le_of_lt hb), Int.mul_ediv_mul_of_pos_left _ _ hc]
  · have hna : 0 ≤ -a := by omega
    have h1 : a * c = -((-a) * c) := by ring
    have h2 : a.tdiv b = -((-a).tdiv b) := by rw [Int.neg_tdiv, neg_neg]
    rw [h1, Int.neg_tdiv, h2,
      Int.tdiv_eq_ediv (mul_nonneg hna (le_of_lt hc)) (le_of_lt (mul_pos hb hc)),
      Int.tdiv_eq_ediv hna (le_of_lt hb), Int.mul_ediv_mul_of_pos_left _ _ hc]

theorem tdiv_floor_bounds (a b : Int) (hb : 0 < b) :
    (0 ≤ a → 0 ≤ a.tdiv b ∧ a.tdiv b * b ≤ a ∧ a < a.tdiv b * b + b) ∧
      (a ≤ 0 → a.tdiv b ≤ 0 ∧ a ≤ a.tdiv b * b ∧ a.tdiv b * b - b < a) := by
  obtain ⟨hp, hn⟩ := tdiv_pos_bounds a b hb
  constructor
  · intro ha
    have h := Int.lt_tdiv_add_one_mul_self a hb
    rw [add_mul, one_mul] at h
    exact ⟨(hp ha).1, (hp ha).2, h⟩
  · intro ha
    have h := Int.lt_tdiv_add_one_mul_self (-a) hb
    rw [Int.neg_tdiv, add_mul, one_mul, neg_mul] at h
    exact ⟨(hn ha).1, (hn ha).2, by omega⟩

/-- Without overflow the stored slope is `(x2 - x1) * 2^16 / (y2 - y1)` truncated
toward zero. -/
theorem slope_exact (x1 y1 x2 y2 : Int) (hx1 : -32768 < x2 - x1) (hx2 : x2 - x1 < 32768)
    (hy1 : y1 < y2) (hy2 : y2 - y1 < 32768) :
    fp_div (shl32 (wrap32 (x2 - x1)) FRACBITS) (slope_divisor y1 y2) FRACBITS
      = fixed_slope x1 y1 x2 y2 := by
  have hnum : shl32 (wrap32 (x2 - x1)) FRACBITS = (x2 - x1) * 65536 := by
    unfold shl32 FRACBITS
    rw [wrap32_of_range (n := x2 - x1) (by omega) (by omega),
      wrap32_of_range (by omega) (by omega)]
    norm_num
  have hnum2 : shl64 ((x2 - x1) * 65536) FRACBITS = (x2 - x1) * 65536 * 65536 := by
    unfold shl64 FRACBITS
    rw [wrap64_of_range (by omega) (by omega)]
    norm_num
  rw [hnum, slope_divisor_of_small y1 y2 hy1 hy2]
  unfold fp_div fixed_slope
  rw [hnum2, tdiv_mul_right_cancel _ _ _ (by omega) (by norm_num)]
  obtain ⟨hp, hn⟩ := tdiv_pos_bounds ((x2 - x1) * 65536) (y2 - y1) (by omega)
  generalize ((x2 - x1) * 65536).tdiv (y2 - y1) = S at hp hn ⊢
  have hH : 1 ≤ y2 - y1 := by omega
  rcases le_total 0 (x2 - x1) with hD | hD
  · obtain ⟨p1, p2⟩ := hp (by omega)
    have p3 : S ≤ S * (y2 - y1) := le_mul_of_one_le_right p1 hH
    exact wrap64_of_range (by omega) (by omega)
  · obtain ⟨n1, n2⟩ := hn (by omega)
    have n3 : S * (y2 - y1) ≤ S := by
      have := le_mul_of_one_le_right (show 0 ≤ -S by omega) hH
      rw [neg_mul] at this
      omega
    exact wrap64_of_range (by omega) (by omega)

/-- Without overflow the offset is the fixed-point product rounded half up. -/
theorem offset_exact (e : edge) (y : Int)
    (hs : e.inverse_slope
      = fp_div (shl32 (wrap32 (e.x2 - e.x1)) FRACBITS) (slope_divisor e.y1 e.y2) FRACBITS)
    (hx1 : -32768 < e.x2 - e.x1) (hx2 : e.x2 - e.x1 < 32768)
    (hy2 : e.y2 - e.y1 < 32768) (h1 : e.y1 ≤ y) (h2 : y < e.y2) :
    offset e y = (fixed_slope e.x1 e.y1 e.x2 e.y2 * (y - e.y1) + 32768) / 65536 := by
  obtain ⟨hp, hn⟩ := slope_bounds e.x1 e.y1 e.x2 e.y2 hx1 hx2 (by omega) hy2
  have hse := slope_exact e.x1 e.y1 e.x2 e.y2 hx1 hx2 (by omega) hy2
  rw [← hs] at hp hn hse
  rw [← hse]
  unfold offset
  rw [wrap32_of_range (n := y - e.y1) (by omega) (by omega), ONEHALF_eq,
    Int.shiftRight_eq_div_pow]
  have hk0 : 0 ≤ y - e.y1 := by omega
  have hkH : y - e.y1 ≤ e.y2 - e.y1 := by omega
  have h65 : ((2 ^ FRACBITS : Nat) : Int) = 65536 := by decide
  rw [h65]
  rcases le_total 0 (e.x2 - e.x1) with hD | hD
  · obtain ⟨p1, p2⟩ := hp hD
    have q1 : 0 ≤ e.inverse_slope * (y - e.y1) := mul_nonneg p1 hk0
    have q2 : e.inverse_slope * (y - e.y1) ≤ e.inverse_slope * (e.y2 - e.y1) :=
      mul_le_mul_of_nonneg_left hkH p1
    rw [wrap64_of_range (n := e.inverse_slope * (y - e.y1)) (by omega) (by omega),
      wrap64_of_range (by omega) (by omega)]
  · obtain ⟨n1, n2⟩ := hn hD
    have q1 : e.inverse_slope * (y - e.y1) ≤ 0 := mul_nonpos_of_nonpos_of_nonneg n1 hk0
    have q2 : e.inverse_slope * (e.y2 - e.y1) ≤ e.inverse_slope * (y - e.y1) :=
      mul_le_mul_of_nonpos_left hkH n1
    rw [wrap64_of_range (n := e.inverse_slope * (y - e.y1)) (by omega) (by omega),
      wrap64_of_range (by omega) (by omega)]

/-- The rounded fixed-point product against the exact product, in integers:
with `S` the truncated slope of `D / H` and `o` the rounded product on row `k`,
`o` is within `1/2` above and `1/2 + k / 2^16` on the side of zero of `D k / H`. -/
theorem rounded_product_bounds (D H k : Int) (hH : 0 < H) (hk : 0 ≤ k) :
    (0 ≤ D →
      65536 * (((D * 65536).tdiv H * k + 32768) / 65536 * H) ≤ 65536 * (D * k) + 32768 * H ∧
      65536 * (D * k) - H * k - 32768 * H
        < 65536 * (((D * 65536).tdiv H * k + 32768) / 65536 * H)) ∧
    (D ≤ 0 →
      65536 * (((D * 65536).tdiv H * k + 32768) / 65536 * H)
        ≤ 65536 * (D * k) + H * k + 32768 * H ∧
      65536 * (D * k) - 32768 * H
        < 65536 * (((D * 65536).tdiv H * k + 32768) / 65536 * H)) := by
  obtain ⟨hp, hn⟩ := tdiv_floor_bounds (D * 65536) H hH
  generalize (D * 65536).tdiv H = S at hp hn ⊢
  have ho1 : (S * k + 32768) / 65536 * 65536 ≤ S * k + 32768 :=
    Int.ediv_mul_le _ (by norm_num)
  have ho2 : S * k + 32768 < (S * k + 32768) / 65536 * 65536 + 65536 := by
    have h := Int.lt_ediv_add_one_mul_self (S * k + 32768) (show (0 : Int) < 65536 by norm_num)
    rw [add_mul, one_mul] at h
    exact h
  generalize (S * k + 32768) / 65536 = o at ho1 ho2 ⊢
  have m1 : o * 65536 * H ≤ (S * k + 32768) * H :=
    mul_le_mul_of_nonneg_right ho1 (le_of_lt hH)
  have m2 : (S * k + 32768) * H < (o * 65536 + 65536) * H :=
    mul_lt_mul_of_pos_right ho2 hH
  constructor
  · intro hD
    obtain ⟨_, s1, s2⟩ := hp (by omega)
    have k1 : S * H * k ≤ D * 65536 * k := mul_le_mul_of_nonneg_right s1 hk
    have k2 : D * 65536 * k ≤ (S * H + H) * k := mul_le_mul_of_nonneg_right (le_of_lt s2) hk
    constructor <;> nlinarith
  · intro hD
    obtain ⟨_, s1, s2⟩ := hn (by omega)
    have k1 : D * 65536 * k ≤ S * H * k := mul_le_mul_of_nonneg_right s1 hk
    have k2 : (S * H - H) * k ≤ D * 65536 * k := mul_le_mul_of_nonneg_right (le_of_lt s2) hk
    constructor <;> nlinarith

theorem make_edge_fields (x1 y1 x2 y2 : Int) (h : y1 < y2) :
    (make_edge x1 y1 x2 y2).x1 = x1 ∧ (make_edge x1 y1 x2 y2).y1 = y1 ∧
      (make_edge x1 y1 x2 y2).x2 = x2 ∧ (make_edge x1 y1 x2 y2).y2 = y2 := by
  have hns : ¬ y1 > y2 := by omega
  rw [make_edge_x1, make_edge_y1, make_edge_x2, make_edge_y2]
  simp [hns]

/-- Without overflow the intersection is `x1` plus the fixed-point product
rounded half up. -/
theorem intersection_fixed (x1 y1 x2 y2 y : Int) (hi1 : is_int x1) (hi2 : is_int x2)
    (hlt : y1 < y2) (hx1 : -32768 < x2 - x1) (hx2 : x2 - x1 < 32768)
    (hy2 : y2 - y1 < 32768) (h1 : y1 ≤ y) (h2 : y < y2) :
    intersection (make_edge x1 y1 x2 y2) y
      = x1 + (fixed_slope x1 y1 x2 y2 * (y - y1) + 32768) / 65536 := by
  obtain ⟨e1, e3, e2, e4⟩ := make_edge_fields x1 y1 x2 y2 hlt
  have hbox := intersection_in_box (make_edge x1 y1 x2 y2) y rfl
    (by rw [e1, e2]; exact hx1) (by rw [e1, e2]; exact hx2) (by rw [e3, e4]; exact hy2)
    (by rw [e3]; exact h1) (by rw [e4]; exact h2) (by rw [e1]; exact hi1)
    (by rw [e2]; exact hi2)
  have hoff := offset_exact (make_edge x1 y1 x2 y2) y rfl
    (by rw [e1, e2]; exact hx1) (by rw [e1, e2]; exact hx2) (by rw [e3, e4]; exact hy2)
    (by rw [e3]; exact h1) (by rw [e4]; exact h2)
  rw [hbox.1, hoff, e1, e2, e3, e4]

theorem rat_le_of_mul (o q c H : ℚ) (hH : 0 < H) (h : o * H ≤ q * H + c * H) : o ≤ q + c := by
  have h2 : o * H ≤ (q + c) * H := by rw [add_mul]; exact h
  exact le_of_mul_le_mul_right h2 hH

theorem rat_lt_of_mul (o q c H : ℚ) (hH : 0 < H) (h : q * H - c * H < o * H) : q - c < o := by
  have h2 : (q - c) * H < o * H := by rw [sub_mul]; exact h
  exact lt_of_mul_lt_mul_right h2 (le_of_lt hH)

/-- The computed intersection against the exact one: it is at most `1/2` away
on the far side of `x1` and less than `1/2 + (y - y1) / 2^16` away on the side
of `x1`. -/
theorem intersection_near_exact (x1 y1 x2 y2 y : Int) (hi1 : is_int x1) (hi2 : is_int x2)
    (hlt : y1 < y2) (hx1 : -32768 < x2 - x1) (hx2 : x2 - x1 < 32768)
    (hy2 : y2 - y1 < 32768) (h1 : y1 ≤ y) (h2 : y < y2) :
    (0 ≤ x2 - x1 →
      ((intersection (make_edge x1 y1 x2 y2) y : Int) : ℚ) ≤ exact_x x1 y1 x2 y2 y + 1 / 2 ∧
      exact_x x1 y1 x2 y2 y - (1 / 2 + ((y - y1 : Int) : ℚ) / 65536)
        < ((intersection (make_edge x1 y1 x2 y2) y : Int) : ℚ)) ∧
    (x2 - x1 ≤ 0 →
      ((intersection (make_edge x1 y1 x2 y2) y : Int) : ℚ)
        ≤ exact_x x1 y1 x2 y2 y + (1 / 2 + ((y - y1 : Int) : ℚ) / 65536) ∧
      exact_x x1 y1 x2 y2 y - 1 / 2
        < ((intersection (make_edge x1 y1 x2 y2) y : Int) : ℚ)) := by
  rw [intersection_fixed x1 y1 x2 y2 y hi1 hi2 hlt hx1 hx2 hy2 h1 h2]
  obtain ⟨hp, hn⟩ := rounded_product_bounds (x2 - x1) (y2 - y1) (y - y1) (by omega) (by omega)
  unfold fixed_slope
  generalize ((x2 - x1) * 65536).tdiv (y2 - y1) * (y - y1) + 32768 = num at hp hn ⊢
  generalize num / 65536 = o at hp hn ⊢
  have hHq : (0 : ℚ) < (y2 : ℚ) - (y1 : ℚ) := by
    have : ((0 : Int) : ℚ) < ((y2 - y1 : Int) : ℚ) := Int.cast_lt.2 (by omega)
    push_cast at this
    exact this
  have hq : ((x2 : ℚ) - (x1 : ℚ)) * ((y : ℚ) - (y1 : ℚ)) / ((y2 : ℚ) - (y1 : ℚ))
      * ((y2 : ℚ) - (y1 : ℚ)) = ((x2 : ℚ) - (x1 : ℚ)) * ((y : ℚ) - (y1 : ℚ)) :=
    div_mul_cancel₀ _ (ne_of_gt hHq)
  unfold exact_x
  push_cast
  generalize ((x2 : ℚ) - (x1 : ℚ)) * ((y : ℚ) - (y1 : ℚ)) / ((y2 : ℚ) - (y1 : ℚ)) = q at hq ⊢
  constructor
  · intro hD
    obtain ⟨a, b⟩ := hp hD
    have a' : ((65536 * (o * (y2 - y1)) : Int) : ℚ)
        ≤ ((65536 * ((x2 - x1) * (y - y1)) + 32768 * (y2 - y1) : Int) : ℚ) := Int.cast_le.2 a
    have b' : ((65536 * ((x2 - x1) * (y - y1)) - (y2 - y1) * (y - y1) - 32768 * (y2 - y1) : Int) : ℚ)
        < ((65536 * (o * (y2 - y1)) : Int) : ℚ) := Int.cast_lt.2 b
    push_cast at a' b'
    constructor
    · have := rat_le_of_mul (o : ℚ) q (1 / 2) ((y2 : ℚ) - (y1 : ℚ)) hHq (by linarith)
      linarith
    · have := rat_lt_of_mul (o : ℚ) q (1 / 2 + ((y : ℚ) - (y1 : ℚ)) / 65536)
        ((y2 : ℚ) - (y1 : ℚ)) hHq (by linarith)
      linarith
  · intro hD
    obtain ⟨a, b⟩ := hn hD
    have a' : ((65536 * (o * (y2 - y1)) : Int) : ℚ)
        ≤ ((65536 * ((x2 - x1) * (y - y1)) + (y2 - y1) * (y - y1) + 32768 * (y2 - y1) : Int) : ℚ) :=
      Int.cast_le.2 a
    have b' : ((65536 * ((x2 - x1) * (y - y1)) - 32768 * (y2 - y1) : Int) : ℚ)
        < ((65536 * (o * (y2 - y1)) : Int) : ℚ) := Int.cast_lt.2 b
    push_cast at a' b'
    constructor
    · have := rat_le_of_mul (o : ℚ) q (1 / 2 + ((y : ℚ) - (y1 : ℚ)) / 65536)
        ((y2 : ℚ) - (y1 : ℚ)) hHq (by linarith)
      linarith
    · have := rat_lt_of_mul (o : ℚ) q (1 / 2) ((y2 : ℚ) - (y1 : ℚ)) hHq (by linarith)
      linarith

/-- For an edge without overflow (`|x2 - x1| < 2^15`, `0 < y2 - y1 < 2^15`) the
computed intersection differs from the exact one by at most
`1/2 + (y - y1) / 2^16`, which is less than 1. -/
theorem interpolation_error_small (x1 y1 x2 y2 y : Int) (hi1 : is_int x1) (hi2 : is_int x2)
    (hlt : y1 < y2) (hx1 : -32768 < x2 - x1) (hx2 : x2 - x1 < 32768)
    (hy2 : y2 - y1 < 32768) (h1 : y1 ≤ y) (h2 : y < y2) :
    |((intersection (make_edge x1 y1 x2 y2) y : Int) : ℚ) - exact_x x1 y1 x2 y2 y|
        ≤ 1 / 2 + ((y - y1 : Int) : ℚ) / 65536 ∧
      |((intersection (make_edge x1 y1 x2 y2) y : Int) : ℚ) - exact_x x1 y1 x2 y2 y| < 1 := by
  obtain ⟨hp, hn⟩ := intersection_near_exact x1 y1 x2 y2 y hi1 hi2 hlt hx1 hx2 hy2 h1 h2
  have hk0 : (0 : ℚ) ≤ ((y - y1 : Int) : ℚ) := Int.cast_nonneg.2 (by omega)
  have hk1 : ((y - y1 : Int) : ℚ) < 32768 := by
    have : ((y - y1 : Int) : ℚ) < ((32768 : Int) : ℚ) := Int.cast_lt.2 (by omega)
    simpa using this
  have hmain : |((intersection (make_edge x1 y1 x2 y2) y : Int) : ℚ) - exact_x x1 y1 x2 y2 y|
      ≤ 1 / 2 + ((y - y1 : Int) : ℚ) / 65536 := by
    rw [abs_le]
    rcases le_total 0 (x2 - x1) with hD | hD
    · obtain ⟨a, b⟩ := hp hD
      constructor <;> linarith
    · obtain ⟨a, b⟩ := hn hD
      constructor <;> linarith
  exact ⟨hmain, lt_of_le_of_lt hmain (by linarith)⟩

/-- The slope divisor `(y2 - y1) << FRACBITS`, computed in `int`, is zero exactly
when `y2 - y1` is a multiple of `2^16`. -/
theorem slope_divisor_eq_zero_iff (y1 y2 : Int) :
    slope_divisor y1 y2 = 0 ↔ (y2 - y1) % 65536 = 0 := by
  unfold slope_divisor shl32 wrap32 FRACBITS
  norm_num
  omega

/-- What holds of the edge extraction for every vertex sequence: the table is
the list of the edges of the cyclically consecutive vertex pairs with different
`y`, in vertex order; it has at most as many edges as there are vertices; every
edge has `y1 < y2`, its ends are the two vertices, and it starts inactive. -/
theorem edge_extraction (v : List (Int × Int)) :
    edge_table (coords_of v) v.length = (cyclic_pairs v).filterMap pair_edge ∧
      (edge_table (coords_of v) v.length).length ≤ v.length ∧
      (∀ p ∈ cyclic_pairs v, p.1.2 = p.2.2 → pair_edge p = none) ∧
      (∀ p ∈ cyclic_pairs v, p.1.2 ≠ p.2.2 → ∃ e, pair_edge p = some e ∧ e.y1 < e.y2 ∧
        e.active = false ∧
        ((e.x1, e.y1) = p.1 ∧ (e.x2, e.y2) = p.2 ∨ (e.x1, e.y1) = p.2 ∧ (e.x2, e.y2) = p.1)) := by
  refine ⟨edge_table_eq v, ?_, ?_, ?_⟩
  · rw [edge_table_eq]
    have h1 := List.length_filterMap_le pair_edge (cyclic_pairs v)
    have h2 : (cyclic_pairs v).length = v.length := by simp [cyclic_pairs]
    omega
  · intro p _ h
    simp [pair_edge, h]
  · intro p _ h
    refine ⟨make_edge p.1.1 p.1.2 p.2.1 p.2.2, by simp [pair_edge, h],
      make_edge_lt _ _ _ _ h, rfl, ?_⟩
    rw [make_edge_x1, make_edge_x2, make_edge_y1, make_edge_y2]
    by_cases hs : p.1.2 > p.2.2
    · right; simp [hs]
    · left; simp [hs]

/-! ## The sweep with the wrapping counter -/

theorem sweep_wrapping_nil (max_y : Int) : ∀ (n : Nat) (y : Int), sweep_wrapping max_y n y [] = []
  | 0, _ => rfl
  | n + 1, y => by
    have ih := sweep_wrapping_nil max_y n (wrap32 (y + 1))
    simp [sweep_wrapping, collect, qsort, emit, ih]

/-- While the counter cannot overflow, what the wrapping sweep has emitted after
`n` tests is an initial part of the calls of one pass. -/
theorem sweep_wrapping_prefix (max_y : Int) (hmax : max_y < INT_MAX) :
    ∀ (n : Nat) (y : Int) (edges : List edge), INT_MIN ≤ y →
      sweep_wrapping max_y n y edges <+: (sweep (max_y - y + 1).toNat y edges).calls
  | 0, _, _, _ => List.nil_prefix
  | n + 1, y, edges, hy => by
    unfold INT_MAX at hmax
    unfold INT_MIN at hy
    by_cases hle : y ≤ max_y
    · have hfuel : (max_y - y + 1).toNat = (max_y - (y + 1) + 1).toNat + 1 := by omega
      have hw : wrap32 (y + 1) = y + 1 := wrap32_of_range (by omega) (by omega)
      have ih := sweep_wrapping_prefix max_y (by unfold INT_MAX; exact hmax) n (y + 1)
        (edges.map (update_active y)) (by unfold INT_MIN; omega)
      rw [hfuel]
      simp only [sweep_wrapping, sweep, hle, if_true, hw]
      split_ifs
      · exact List.prefix_rfl
      · exact (List.prefix_append_right_inj _).2 ih
    · simp only [sweep_wrapping, hle, if_false]
      exact List.nil_prefix

/-- While the counter cannot overflow, the wrapping sweep leaves the loop after
one pass: from the test after the last row on, its calls are those of the pass. -/
theorem sweep_wrapping_complete (max_y : Int) (hmax : max_y < INT_MAX) :
    ∀ (n : Nat) (y : Int) (edges : List edge), INT_MIN ≤ y → (max_y - y + 1).toNat + 1 ≤ n →
      sweep_wrapping max_y n y edges = (sweep (max_y - y + 1).toNat y edges).calls
  | 0, _, _, _, hn => by omega
  | n + 1, y, edges, hy, hn => by
    unfold INT_MAX at hmax
    unfold INT_MIN at hy
    by_cases hle : y ≤ max_y
    · have hfuel : (max_y - y + 1).toNat = (max_y - (y + 1) + 1).toNat + 1 := by omega
      have hw : wrap32 (y + 1) = y + 1 := wrap32_of_range (by omega) (by omega)
      have ih := sweep_wrapping_complete max_y (by unfold INT_MAX; exact hmax) n (y + 1)
        (edges.map (update_active y)) (by unfold INT_MIN; omega) (by omega)
      rw [hfuel]
      simp only [sweep_wrapping, sweep, hle, if_true, hw]
      split_ifs
      · rfl
      · rw [ih]
    · have hfuel : (max_y - y + 1).toNat = 0 := by omega
      rw [hfuel]
      simp only [sweep_wrapping, hle, if_false]
      rfl

theorem extent_of_y_below_max (heap : edge) (v : List (Int × Int)) (hy : y_below_max v)
    (hne : edge_table (coords_of v) v.length ≠ []) :
    INT_MIN ≤ (find_min_max_y heap (edge_table (coords_of v) v.length)).1 ∧
      (find_min_max_y heap (edge_table (coords_of v) v.length)).2 < INT_MAX := by
  obtain ⟨⟨_, e1, he1, h1⟩, ⟨_, e2, he2, h2⟩⟩ := find_min_max_y_spec heap _ hne
  obtain ⟨a1, ha1, b1, hb1, _, rfl⟩ := mem_edge_table_ends he1
  obtain ⟨a2, ha2, b2, hb2, _, rfl⟩ := mem_edge_table_ends he2
  have := hy a1 ha1
  have := hy b1 hb1
  have := hy a2 ha2
  have := hy b2 hb2
  rw [h1, h2, make_edge_y1, make_edge_y2]
  constructor <;> split_ifs <;> omega

/-- For a polygon whose `y` are C ints below `INT_MAX`, what the wrapping run has
emitted after any number of tests is an initial part of the calls of `fill`, and
all of them once the loop has ended. -/
theorem fill_polygon_wrapping_spec (heap : edge) (v : List (Int × Int)) (h3 : 3 ≤ v.length)
    (hy : y_below_max v) :
    (∀ n, fill_polygon_wrapping heap (coords_of v) v.length n <+: (fill heap v).calls) ∧
      ∃ N, ∀ n, N ≤ n →
        fill_polygon_wrapping heap (coords_of v) v.length n = (fill heap v).calls := by
  have hlen : ¬ ((v.length : Int) < 3) := by omega
  by_cases hdiv : ((edge_table (coords_of v) v.length).any
      fun e => decide (slope_divisor e.y1 e.y2 = 0)) = true
  · simp only [fill_polygon_wrapping, fill, fill_polygon, hlen, if_false, Int.toNat_ofNat,
      hdiv, if_true]
    exact ⟨fun _ => List.prefix_rfl, 0, fun _ _ => trivial⟩
  · by_cases hne : edge_table (coords_of v) v.length = []
    · simp only [fill_polygon_wrapping, fill, fill_polygon, hlen, if_false, Int.toNat_ofNat,
        hne, List.any_nil, sweep_wrapping_nil, sweep_nil, Bool.false_eq_true]
      exact ⟨fun _ => List.prefix_rfl, 0, fun _ _ => trivial⟩
    · obtain ⟨hmin, hmax⟩ := extent_of_y_below_max heap v hy hne
      simp only [fill_polygon_wrapping, fill, fill_polygon, hlen, if_false, Int.toNat_ofNat,
        hdiv]
      exact ⟨fun n => sweep_wrapping_prefix _ hmax n _ _ hmin,
        _, fun n hn => sweep_wrapping_complete _ hmax n _ _ hmin hn⟩

theorem sweep_wrapping_step (max_y : Int) (n : Nat) (y : Int) (edges : List edge)
    (xs : List Int) (hle : y ≤ max_y) (hxs : collect (edges.map (update_active y)) y = xs)
    (heven : xs.length % 2 = 0) :
    sweep_wrapping max_y (n + 1) y edges
      = emit y (qsort xs)
          ++ sweep_wrapping max_y n (wrap32 (y + 1)) (edges.map (update_active y)) := by
  simp only [sweep_wrapping, hle, if_true, hxs, heven, ne_eq, not_true_eq_false, if_false]

theorem update_active_inactive (y : Int) (e : edge) (h1 : e.active = false) (h2 : e.y1 ≠ y) :
    update_active y e = e := by
  unfold update_active
  rw [if_neg h2]
  split_ifs
  · cases e
    simp only at h1
    simp [h1]
  · rfl

theorem collect_inactive (edges : List edge) (y : Int) (h : ∀ e ∈ edges, e.active = false) :
    collect edges y = [] := by
  unfold collect
  rw [List.filterMap_eq_nil_iff]
  intro e he
  simp [h e he]

/-- Rows on which no edge starts, met with every edge inactive, add no call and
change no flag: the wrapping sweep passes `k` of them. -/
theorem sweep_wrapping_skip (max_y : Int) (edges : List edge)
    (hinact : ∀ e ∈ edges, e.active = false) :
    ∀ (k n : Nat) (y : Int), INT_MIN ≤ y → y + k ≤ INT_MAX → y + k ≤ max_y + 1 →
      (∀ e ∈ edges, y + k ≤ e.y1) →
      sweep_wrapping max_y (k + n) y edges = sweep_wrapping max_y n (y + k) edges
  | 0, n, y, _, _, _, _ => by simp
  | k + 1, n, y, hy, hk, hm, hstart => by
    unfold INT_MIN at hy
    unfold INT_MAX at hk
    push_cast at hk hm hstart
    have hmap : edges.map (update_active y) = edges := by
      conv_rhs => rw [← List.map_id edges]
      apply List.map_congr_left
      intro e he
      have := hstart e he
      exact update_active_inactive y e (hinact e he) (by omega)
    have hw : wrap32 (y + 1) = y + 1 := wrap32_of_range (by omega) (by omega)
    have hstep := sweep_wrapping_step max_y (k + n) y edges [] (by omega)
      (by rw [hmap]; exact collect_inactive edges y hinact) rfl
    rw [show k + 1 + n = k + n + 1 by omega, hstep, hmap, hw]
    have ih := sweep_wrapping_skip max_y edges hinact k n (y + 1) (by unfold INT_MIN; omega)
      (by unfold INT_MAX; omega) (by omega) (fun e he => by have := hstart e he; omega)
    rw [ih]
    simp [qsort, emit, add_assoc, add_comm (1 : Int)]

/-- The run on the triangle `(0,INT_MAX-2), (4,INT_MAX-2), (0,INT_MAX)`: the test
`y <= max_y` holds for every `int`, the counter wraps after row `INT_MAX`, and
after `2^32 + 1` tests the two calls of the first pass have been followed by the
first call again. -/
theorem wrapping_run_at_int_max (heap : edge) :
    fill_polygon_wrapping heap
        (coords_of [(0, 2147483645), (4, 2147483645), (0, 2147483647)]) 3 4294967297
      = [⟨0, 4, 2147483645⟩, ⟨0, 2, 2147483646⟩, ⟨0, 4, 2147483645⟩] := by
  have htable : edge_table (coords_of [(0, 2147483645), (4, 2147483645), (0, 2147483647)]) 3
      = [⟨4, 2147483645, 0, 2147483647, false, -131072⟩,
         ⟨0, 2147483645, 0, 2147483647, false, 0⟩] := by decide
  have hlen : ¬ ((3 : Int) < 3) := by decide
  have hdiv : ([⟨4, 2147483645, 0, 2147483647, false, -131072⟩,
      ⟨0, 2147483645, 0, 2147483647, false, 0⟩] : List edge).any
      (fun e => decide (slope_divisor e.y1 e.y2 = 0)) = false := by decide
  have hmm : find_min_max_y heap
      [⟨4, 2147483645, 0, 2147483647, false, -131072⟩,
       ⟨0, 2147483645, 0, 2147483647, false, 0⟩] = (2147483645, 2147483647) := by
    simp [find_min_max_y, min_max_step]
  have hnat : Int.toNat 3 = 3 := rfl
  simp only [fill_polygon_wrapping, hlen, if_false, hnat, htable, hdiv, hmm,
    Bool.false_eq_true]
  show sweep_wrapping 2147483647 (4294967296 + 1) 2147483645 _ = _
  rw [sweep_wrapping_step 2147483647 4294967296 2147483645 _ [4, 0] (by decide) (by decide)
    (by decide)]
  have u1 : ([⟨4, 2147483645, 0, 2147483647, false, -131072⟩,
      ⟨0, 2147483645, 0, 2147483647, false, 0⟩] : List edge).map (update_active 2147483645)
      = [⟨4, 2147483645, 0, 2147483647, true, -131072⟩,
         ⟨0, 2147483645, 0, 2147483647, true, 0⟩] := by decide
  have w1 : wrap32 (2147483645 + 1) = 2147483646 := by decide
  rw [u1, w1]
  show _ ++ sweep_wrapping 2147483647 (4294967295 + 1) 2147483646 _ = _
  rw [sweep_wrapping_step 2147483647 4294967295 2147483646 _ [2, 0] (by decide) (by decide)
    (by decide)]
  have u2 : ([⟨4, 2147483645, 0, 2147483647, true, -131072⟩,
      ⟨0, 2147483645, 0, 2147483647, true, 0⟩] : List edge).map (update_active 2147483646)
      = [⟨4, 2147483645, 0, 2147483647, true, -131072⟩,
         ⟨0, 2147483645, 0, 2147483647, true, 0⟩] := by decide
  have w2 : wrap32 (2147483646 + 1) = 2147483647 := by decide
  rw [u2, w2]
  show _ ++ (_ ++ sweep_wrapping 2147483647 (4294967294 + 1) 2147483647 _) = _
  rw [sweep_wrapping_step 2147483647 4294967294 2147483647 _ [] (by decide) (by decide)
    (by decide)]
  have u3 : ([⟨4, 2147483645, 0, 2147483647, true, -131072⟩,
      ⟨0, 2147483645, 0, 2147483647, true, 0⟩] : List edge).map (update_active 2147483647)
      = [⟨4, 2147483645, 0, 2147483647, false, -131072⟩,
         ⟨0, 2147483645, 0, 2147483647, false, 0⟩] := by decide
  have w3 : wrap32 (2147483647 + 1) = -2147483648 := by decide
  rw [u3, w3]
  have hskip := sweep_wrapping_skip 2147483647
    [⟨4, 2147483645, 0, 2147483647, false, -131072⟩, ⟨0, 2147483645, 0, 2147483647, false, 0⟩]
    (by decide) 4294967293 1 (-2147483648) (by decide) (by decide) (by decide) (by decide)
  have hsum : (-2147483648 : Int) + ((4294967293 : Nat) : Int) = 2147483645 := by decide
  rw [hsum] at hskip
  show _ ++ (_ ++ (_ ++ sweep_wrapping 2147483647 (4294967293 + 1) (-2147483648) _)) = _
  rw [hskip, sweep_wrapping_step 2147483647 0 2147483645 _ [4, 0] (by decide) (by decide)
    (by decide)]
  decide

/-! ## The claims -/

/-- C1 (even-odd rule). For a polygon of at least 3 vertices with coordinates of
absolute value at most 16383, every row `y` and every integer `p`: `p` lies in
the half-open interval `[x1, x2)` of some span emitted on row `y` if and only if
the edges of the table with `y1 ≤ y < y2` whose computed intersection on row `y`
is at most `p` are odd in number. -/
theorem even_odd_rule (heap : edge) (v : List (Int × Int)) (h3 : 3 ≤ v.length)
    (hb : in_range v) (y p : Int) :
    (∃ s ∈ (fill heap v).calls, s.y = y ∧ s.x1 ≤ p ∧ p < s.x2) ↔
      ((edge_table (coords_of v) v.length).filter
        (fun e => decide (e.y1 ≤ y ∧ y < e.y2 ∧ intersection e y ≤ p))).length % 2 = 1 := by
  rw [← row_calls_parity _ y p (row_xs_even v y)]
  constructor
  · rintro ⟨s, hs, rfl, hp⟩
    exact ⟨s, (mem_fill_calls heap v h3 (no_trap_of_in_range v hb) s).1 hs, hp⟩
  · rintro ⟨s, hs, hp⟩
    have hy := row_calls_y _ _ s hs
    subst hy
    exact ⟨s, (mem_fill_calls heap v h3 (no_trap_of_in_range v hb) s).2 hs, rfl, hp⟩

/-- Witness of C1: the triangle `(0,0), (4,0), (0,4)`, row 1, `p = 2`. -/
theorem even_odd_rule_witness :
    3 ≤ [((0 : Int), (0 : Int)), (4, 0), (0, 4)].length ∧ in_range [(0, 0), (4, 0), (0, 4)] ∧
    ((∃ s ∈ (fill heap0 [(0, 0), (4, 0), (0, 4)]).calls, s.y = 1 ∧ s.x1 ≤ 2 ∧ 2 < s.x2) ↔
      ((edge_table (coords_of [(0, 0), (4, 0), (0, 4)]) 3).filter
        (fun e => decide (e.y1 ≤ 1 ∧ 1 < e.y2 ∧ intersection e 1 ≤ 2))).length % 2 = 1) :=
  ⟨by decide, by decide,
    even_odd_rule heap0 [(0, 0), (4, 0), (0, 4)] (by decide) (by decide) 1 2⟩

/-- C4 (degenerate input). With `npoints < 3`, negative values included,
`fill_polygon` returns without any call of `hline`, and what it does is the same
for every content of `coords`. -/
theorem degenerate_input (heap : edge) (coords : Nat → Int) (npoints : Int)
    (h : npoints < 3) :
    fill_polygon heap coords npoints = ⟨[], [], none⟩ ∧
      ∀ coords2 : Nat → Int,
        fill_polygon heap coords2 npoints = fill_polygon heap coords npoints := by
  unfold fill_polygon
  simp [h]

/-- Witness of C4: two points, and a negative count. -/
theorem degenerate_input_witness :
    (fill_polygon heap0 (coords_of [(0, 0), (5, 7)]) 2 = ⟨[], [], none⟩ ∧
      ∀ coords2 : Nat → Int,
        fill_polygon heap0 coords2 2 = fill_polygon heap0 (coords_of [(0, 0), (5, 7)]) 2) ∧
    (fill_polygon heap0 (coords_of [(0, 0), (5, 7)]) (-1)).calls = [] :=
  ⟨degenerate_input heap0 (coords_of [(0, 0), (5, 7)]) 2 (by decide),
    congrArg Run.calls (degenerate_input heap0 (coords_of [(0, 0), (5, 7)]) (-1) (by decide)).1⟩

/-- The calls of one pass of the sweep are ordered: any two consecutive calls
`(a,b,y)` then `(c,d,y')` satisfy `y < y'`, or `y = y'` with `a ≤ c` and `b ≤ c`. -/
theorem first_pass_order (heap : edge) (coords : Nat → Int) (npoints : Int) :
    List.Chain' precedes (fill_polygon heap coords npoints).calls := by
  rcases fill_polygon_calls heap coords npoints with h | ⟨fuel, y, edges, h⟩
  · rw [h]; exact List.chain'_nil
  · rw [h]; exact (sweep_ordered fuel y edges).2

/-- The in-range part of C6: for a polygon of at least 3 vertices whose `y` are
C ints below `INT_MAX`, the calls the wrapping run has made after any number of
tests of its loop are ordered, and so are all the calls of the run. -/
theorem emission_order_below_max (heap : edge) (v : List (Int × Int)) (h3 : 3 ≤ v.length)
    (hy : y_below_max v) :
    (∀ n, consecutive precedes (fill_polygon_wrapping heap (coords_of v) v.length n)) ∧
      consecutive precedes (fill heap v).calls := by
  have hall := first_pass_order heap (coords_of v) v.length
  have hpre : ∀ n, List.Chain' precedes
      (fill_polygon_wrapping heap (coords_of v) v.length n) :=
    fun n => List.Chain'.prefix hall ((fill_polygon_wrapping_spec heap v h3 hy).1 n)
  exact ⟨fun n => consecutive_of_chain' _ (hpre n), consecutive_of_chain' _ hall⟩

/-- C6 at the failing input, the triangle `(0,INT_MAX-2), (4,INT_MAX-2),
(0,INT_MAX)`: `max_y` is `INT_MAX`, the test `y <= max_y` never fails, the
counter wraps, and after `2^32 + 1` tests the calls are `(0,4,INT_MAX-2)`,
`(0,2,INT_MAX-1)` and `(0,4,INT_MAX-2)` again: the third call is on an earlier
row than the second. The model of one pass marks the input with
`counter_overflow`. -/
theorem emission_order_overflow :
    (∀ heap : edge,
      fill_polygon_wrapping heap
          (coords_of [(0, 2147483645), (4, 2147483645), (0, 2147483647)]) 3 4294967297
        = [⟨0, 4, 2147483645⟩, ⟨0, 2, 2147483646⟩, ⟨0, 4, 2147483645⟩]) ∧
    ¬ precedes ⟨0, 2, 2147483646⟩ ⟨0, 4, 2147483645⟩ ∧
    ¬ consecutive precedes
        [⟨0, 4, 2147483645⟩, ⟨0, 2, 2147483646⟩, ⟨0, 4, 2147483645⟩] ∧
    (fill heap0 [(0, 2147483645), (4, 2147483645), (0, 2147483647)]).fault
      = some Fault.counter_overflow := by
  refine ⟨wrapping_run_at_int_max, by decide, ?_, by decide⟩
  intro h
  have h2 := h 1 ⟨0, 2, 2147483646⟩ ⟨0, 4, 2147483645⟩ rfl rfl
  revert h2
  decide

/-- C7 (span orientation). For every input, every call `hline(x1, x2, y)` made
by `fill_polygon` has `x1 ≤ x2`. -/
theorem span_start_le_end (heap : edge) (coords : Nat → Int) (npoints : Int) :
    ∀ s ∈ (fill_polygon heap coords npoints).calls, s.x1 ≤ s.x2 := by
  rcases fill_polygon_calls heap coords npoints with h | ⟨fuel, y, edges, h⟩
  · rw [h]; simp
  · rw [h]
    intro s hs
    exact ((sweep_ordered fuel y edges).1 s hs).2

/-- Witness of C7: the span of row 1 of the triangle `(0,0), (4,0), (0,4)`. -/
theorem span_start_le_end_witness : (⟨0, 3, 1⟩ : hline).x1 ≤ (⟨0, 3, 1⟩ : hline).x2 :=
  span_start_le_end heap0 (coords_of [(0, 0), (4, 0), (0, 4)]) 3 ⟨0, 3, 1⟩ (by decide)

/-- C2 (axis-aligned rectangle). For `x0 ≤ x1` and `y0 < y1` of absolute value at
most 16383, the run on `(x0,y0), (x1,y0), (x1,y1), (x0,y1)` makes exactly the
calls `(x0, x1, y)` for `y = y0, ..., y1-1`, in this order, nothing on row `y1`
or elsewhere, and returns. -/
theorem rectangle_spans (heap : edge) (x0 x1 y0 y1 : Int) (hx : x0 ≤ x1) (hy : y0 < y1)
    (hx0 : -16383 ≤ x0) (hx1 : x1 ≤ 16383) (hy0 : -16383 ≤ y0) (hy1 : y1 ≤ 16383) :
    (fill heap [(x0, y0), (x1, y0), (x1, y1), (x0, y1)]).calls
        = (rows_from y0 (y1 - y0).toNat).map (fun y => ⟨x0, x1, y⟩) ∧
      (fill heap [(x0, y0), (x1, y0), (x1, y1), (x0, y1)]).fault = none := by
  have hb : in_range [(x0, y0), (x1, y0), (x1, y1), (x0, y1)] := by
    intro q hq
    simp only [List.mem_cons, List.mem_singleton, List.not_mem_nil, or_false] at hq
    rcases hq with rfl | rfl | rfl | rfl <;> dsimp only <;> omega
  have hrun := fill_run heap _ (by simp) (no_trap_of_in_range _ hb)
  have hlen : [(x0, y0), (x1, y0), (x1, y1), (x0, y1)].length = 4 := rfl
  rw [hlen, rectangle_table x0 x1 y0 y1 hy] at hrun
  have hmm : find_min_max_y heap
      [⟨x1, y0, x1, y1, false, 0⟩, ⟨x0, y0, x0, y1, false, 0⟩] = (y0, y1) := by
    simp [find_min_max_y, min_max_step]
  rw [hmm] at hrun
  dsimp only at hrun
  have hn : (y1 - y0 + 1).toNat = (y1 - y0).toNat + 1 := by omega
  have hlast : y0 + ((y1 - y0).toNat : Int) = y1 := by omega
  have hmax : y1 ≠ INT_MAX := by unfold INT_MAX; omega
  rw [hrun]
  refine ⟨?_, by simp [hmax]⟩
  dsimp only
  rw [hn, rows_from_succ, List.flatMap_append, hlast]
  have hend : row_calls [⟨x1, y0, x1, y1, false, 0⟩, ⟨x0, y0, x0, y1, false, 0⟩] y1 = [] := by
    simp [row_calls, row_xs, active_on, List.filter_cons, qsort_nil, emit]
  rw [List.flatMap_singleton, hend, List.append_nil]
  apply flatMap_rows_from
  intro y h1 h2
  have h3 : y < y1 := by omega
  have hxs : row_xs [⟨x1, y0, x1, y1, false, 0⟩, ⟨x0, y0, x0, y1, false, 0⟩] y = [x1, x0] := by
    simp only [row_xs, active_on, List.filter_cons, h1, h3, and_self, decide_True, if_true,
      List.filter_nil, List.map_cons, List.map_nil]
    rw [intersection_vertical _ y rfl (by dsimp only; omega) (by dsimp only; omega),
      intersection_vertical _ y rfl (by dsimp only; omega) (by dsimp only; omega)]
  rw [row_calls, hxs, qsort_pair x0 x1 hx]
  rfl

/-- Witness of C2: the rectangle `(100,100), (200,100), (200,200), (100,200)`. -/
theorem rectangle_spans_witness :
    (fill heap0 [(100, 100), (200, 100), (200, 200), (100, 200)]).calls
        = (rows_from 100 100).map (fun y => ⟨100, 200, y⟩) ∧
      (fill heap0 [(100, 100), (200, 100), (200, 200), (100, 200)]).fault = none :=
  rectangle_spans heap0 100 200 100 200 (by decide) (by decide) (by decide) (by decide)
    (by decide) (by decide)

theorem triangle_table (n : Int) (h1 : 1 ≤ n) (h2 : n ≤ 16383) :
    edge_table (coords_of [(0, 0), (n, 0), (0, n)]) 3
      = [⟨n, 0, 0, n, false, -65536⟩, ⟨0, 0, 0, n, false, 0⟩] := by
  have h := edge_table_eq [(0, 0), (n, 0), (0, n)]
  simp only [List.length_cons, List.length_nil] at h
  rw [h]
  have a1 : (0 : Int) ≠ n := by omega
  have a2 : n ≠ 0 := by omega
  have a3 : ¬ (0 : Int) > n := by omega
  have a4 : n > 0 := by omega
  have hd : slope_divisor 0 n = n * 65536 := by
    rw [slope_divisor_of_small 0 n (by omega) (by omega)]; ring
  have hnum : shl32 (wrap32 (0 - n)) FRACBITS = (-65536) * n := by
    unfold shl32 FRACBITS
    rw [wrap32_of_range (n := 0 - n) (by omega) (by omega),
      wrap32_of_range (by omega) (by omega)]
    ring
  have hslope : fp_div (shl32 (wrap32 (0 - n)) FRACBITS) (slope_divisor 0 n) FRACBITS
      = -65536 := by
    rw [hd, hnum]
    unfold fp_div shl64 FRACBITS
    have e1 : (-65536 * n * 2 ^ 16 : Int) = (-65536) * (n * 65536) := by ring
    rw [e1, wrap64_of_range (n := -65536 * (n * 65536)) (by omega) (by omega),
      Int.mul_tdiv_cancel _ (by omega)]
    decide
  have hslope2 : fp_div (shl32 (wrap32 (-n)) FRACBITS) (slope_divisor 0 n) FRACBITS
      = -65536 := by
    rw [← hslope, zero_sub]
  simp only [cyclic_pairs_cons, pair_edge, make_edge, List.zip_cons_cons, List.cons_append,
    List.nil_append, List.filterMap_cons, a1, a2, a3, a4, ne_eq, not_true_eq_false,
    not_false_eq_true, if_true, if_false, decide_True, decide_False, hslope, sub_self,
    wrap32_zero, shl32_zero, fp_div_zero, List.zip_nil_right, List.filterMap_nil,
    gt_iff_lt, lt_self_iff_false]
  simp [a4, hslope2]

/-- The intersection of the hypotenuse of the triangle with row `y`. -/
theorem intersection_hypotenuse (n y : Int) (h1 : 0 ≤ y) (h2 : y < n) (h3 : n ≤ 16383) :
    intersection ⟨n, 0, 0, n, false, -65536⟩ y = n - y := by
  unfold intersection offset
  dsimp only
  rw [sub_zero, wrap32_of_range (n := y) (by omega) (by omega), ONEHALF_eq,
    wrap64_of_range (n := -65536 * y) (by omega) (by omega),
    wrap64_of_range (by omega) (by omega), Int.shiftRight_eq_div_pow]
  have : (-65536 * y + 32768) / ((2 ^ FRACBITS : Nat) : Int) = -y := by
    unfold FRACBITS
    norm_num
    omega
  rw [this, wrap32_of_range (by omega) (by omega)]
  ring

/-- C3 (right triangle). For `1 ≤ n ≤ 16383` the run on `(0,0), (n,0), (0,n)`
makes exactly the calls `(0, n-y, y)` for `y = 0, ..., n-1`, in this order,
nothing on row `n`, and returns; row 0 is filled from 0 to `n` although the
horizontal edge is not in the table. -/
theorem right_triangle_spans (heap : edge) (n : Int) (h1 : 1 ≤ n) (h2 : n ≤ 16383) :
    (fill heap [(0, 0), (n, 0), (0, n)]).calls
        = (rows_from 0 n.toNat).map (fun y => ⟨0, n - y, y⟩) ∧
      (fill heap [(0, 0), (n, 0), (0, n)]).fault = none := by
  have hb : in_range [(0, 0), (n, 0), (0, n)] := by
    intro q hq
    simp only [List.mem_cons, List.mem_singleton, List.not_mem_nil, or_false] at hq
    rcases hq with rfl | rfl | rfl <;> dsimp only <;> omega
  have hrun := fill_run heap _ (by simp) (no_trap_of_in_range _ hb)
  have hlen : [((0 : Int), (0 : Int)), (n, 0), (0, n)].length = 3 := rfl
  rw [hlen, triangle_table n h1 h2] at hrun
  have hmm : find_min_max_y heap
      [⟨n, 0, 0, n, false, -65536⟩, ⟨0, 0, 0, n, false, 0⟩] = (0, n) := by
    have : ¬ n < 0 := by omega
    simp [find_min_max_y, min_max_step, this]
  rw [hmm] at hrun
  dsimp only at hrun
  have hn : (n - 0 + 1).toNat = n.toNat + 1 := by omega
  have hlast : (0 : Int) + (n.toNat : Int) = n := by omega
  have hmax : n ≠ INT_MAX := by unfold INT_MAX; omega
  rw [hrun]
  refine ⟨?_, by simp [hmax]⟩
  dsimp only
  rw [hn, rows_from_succ, List.flatMap_append, hlast]
  have hend : row_calls [⟨n, 0, 0, n, false, -65536⟩, ⟨0, 0, 0, n, false, 0⟩] n = [] := by
    simp [row_calls, row_xs, active_on, List.filter_cons, qsort_nil, emit]
  rw [List.flatMap_singleton, hend, List.append_nil]
  apply flatMap_rows_from
  intro y h3 h4
  have h5 : y < n := by omega
  have hxs : row_xs [⟨n, 0, 0, n, false, -65536⟩, ⟨0, 0, 0, n, false, 0⟩] y = [n - y, 0] := by
    simp only [row_xs, active_on, List.filter_cons, h3, h5, and_self, decide_True, if_true,
      List.filter_nil, List.map_cons, List.map_nil]
    rw [intersection_hypotenuse n y h3 h5 h2,
      intersection_vertical _ y rfl (by dsimp only; omega) (by dsimp only; omega)]
  rw [row_calls, hxs, qsort_pair 0 (n - y) (by omega)]
  rfl

/-- Witness of C3: `n = 4`. -/
theorem right_triangle_spans_witness :
    (fill heap0 [(0, 0), (4, 0), (0, 4)]).calls = [⟨0, 4, 0⟩, ⟨0, 3, 1⟩, ⟨0, 2, 2⟩, ⟨0, 1, 3⟩] ∧
      (fill heap0 [(0, 0), (4, 0), (0, 4)]).fault = none :=
  right_triangle_spans heap0 4 (by decide) (by decide)

/-- C5 (rows covered). For a polygon of at least 3 vertices, not all on one `y`,
with coordinates of absolute value at most 16383: a row `y` receives at least
one span if and only if `ymin ≤ y < ymax`, with `ymin` and `ymax` the least and
greatest `y` over all vertices. -/
theorem rows_covered (heap : edge) (v : List (Int × Int)) (h3 : 3 ≤ v.length)
    (hb : in_range v) (_hy : ∃ a ∈ v, ∃ b ∈ v, a.2 ≠ b.2) (y : Int) :
    (∃ s ∈ (fill heap v).calls, s.y = y) ↔ vertex_min_y v ≤ y ∧ y < vertex_max_y v := by
  have hv : v ≠ [] := by
    intro h0; rw [h0] at h3; simp at h3
  rw [vertex_min_y_le_iff v hv, lt_vertex_max_y_iff v hv, ← exists_row_call_iff]
  constructor
  · rintro ⟨s, hs, rfl⟩
    exact ⟨s, (mem_fill_calls heap v h3 (no_trap_of_in_range v hb) s).1 hs⟩
  · rintro ⟨s, hs⟩
    have hy := row_calls_y _ _ s hs
    subst hy
    exact ⟨s, (mem_fill_calls heap v h3 (no_trap_of_in_range v hb) s).2 hs, rfl⟩

/-- Witness of C5: the triangle `(0,0), (4,0), (0,4)` on row 3, the last row
with a span (`ymin = 0`, `ymax = 4`). -/
theorem rows_covered_witness :
    (∃ s ∈ (fill heap0 [(0, 0), (4, 0), (0, 4)]).calls, s.y = 3) ↔
      vertex_min_y [(0, 0), (4, 0), (0, 4)] ≤ 3 ∧ 3 < vertex_max_y [(0, 0), (4, 0), (0, 4)] :=
  rows_covered heap0 [(0, 0), (4, 0), (0, 4)] (by decide) (by decide)
    ⟨(0, 0), by decide, (0, 4), by decide, by decide⟩ 3

/-- C8 (winding invariance). For a vertex sequence of length at least 3 with at
least one non-horizontal edge, the run on the reversed sequence makes the same
sequence of calls as the run on the sequence itself (and stops the same way),
whatever the edge array held before either run. -/
theorem winding_invariance (heap1 heap2 : edge) (v : List (Int × Int)) (h3 : 3 ≤ v.length)
    (hne : edge_table (coords_of v) v.length ≠ []) :
    (fill heap1 v.reverse).calls = (fill heap2 v).calls ∧
      (fill heap1 v.reverse).fault = (fill heap2 v).fault := by
  have hp := edge_table_reverse v (by omega)
  unfold fill
  rw [List.length_reverse] at hp ⊢
  exact fill_polygon_perm heap1 heap2 _ _ _ (by simpa using hp) (by simpa using hne)

/-- Witness of C8: the triangle `(0,0), (4,0), (0,4)` and its reverse. -/
theorem winding_invariance_witness :
    (fill heap0 [(0, 4), (4, 0), (0, 0)]).calls = (fill heap0 [(0, 0), (4, 0), (0, 4)]).calls ∧
      (fill heap0 [(0, 4), (4, 0), (0, 0)]).fault = (fill heap0 [(0, 0), (4, 0), (0, 4)]).fault :=
  winding_invariance heap0 heap0 [(0, 0), (4, 0), (0, 4)] (by decide) (by decide)

/-- C9 (translation invariance). For a vertex sequence of length at least 3 with
at least one non-horizontal edge, and `dx`, `dy` such that the coordinates before
and after the translation have absolute value at most 16383: the run on the
translated sequence makes exactly the calls `(a + dx, b + dx, y + dy)`, in the
same order, for the calls `(a, b, y)` of the run on the sequence itself, and both
runs return. -/
theorem translation_invariance (heap1 heap2 : edge) (dx dy : Int) (v : List (Int × Int))
    (h3 : 3 ≤ v.length) (hne : edge_table (coords_of v) v.length ≠ [])
    (hb : in_range v) (hb2 : in_range (translate dx dy v)) :
    (fill heap1 (translate dx dy v)).calls = (fill heap2 v).calls.map (shift_call dx dy) ∧
      (fill heap1 (translate dx dy v)).fault = none ∧ (fill heap2 v).fault = none := by
  have hlen : (translate dx dy v).length = v.length := by simp [translate]
  have h3' : 3 ≤ (translate dx dy v).length := by omega
  have hne' : edge_table (coords_of (translate dx dy v)) (translate dx dy v).length ≠ [] := by
    rw [edge_table_translate]; simpa using hne
  refine ⟨?_, fill_fault_of_in_range heap1 _ h3' hne' hb2,
    fill_fault_of_in_range heap2 v h3 hne hb⟩
  have ok1 := edge_ok_of_in_range v hb
  have ok2 : ∀ e ∈ edge_table (coords_of v) v.length, edge_ok (shift_edge dx dy e) := by
    intro e he
    apply edge_ok_of_in_range _ hb2
    rw [edge_table_translate]
    exact List.mem_map_of_mem _ he
  rw [fill_run heap1 _ h3' (no_trap_of_in_range _ hb2),
    fill_run heap2 v h3 (no_trap_of_in_range v hb)]
  dsimp only
  rw [edge_table_translate, find_min_max_y_shift heap1 heap2 dx dy _ hne]
  dsimp only
  rw [show (find_min_max_y heap2 (edge_table (coords_of v) v.length)).2 + dy
        - ((find_min_max_y heap2 (edge_table (coords_of v) v.length)).1 + dy) + 1
      = (find_min_max_y heap2 (edge_table (coords_of v) v.length)).2
        - (find_min_max_y heap2 (edge_table (coords_of v) v.length)).1 + 1 by omega,
    rows_from_shift, List.flatMap_map, List.map_flatMap]
  apply List.flatMap_congr
  intro y _
  exact row_calls_shift dx dy y _ ok1 ok2

/-- Witness of C9: the triangle `(0,0), (4,0), (0,4)` moved by `(10, -3)`. -/
theorem translation_invariance_witness :
    (fill heap0 (translate 10 (-3) [(0, 0), (4, 0), (0, 4)])).calls
        = (fill heap0 [(0, 0), (4, 0), (0, 4)]).calls.map (shift_call 10 (-3)) ∧
      (fill heap0 (translate 10 (-3) [(0, 0), (4, 0), (0, 4)])).fault = none ∧
      (fill heap0 [(0, 0), (4, 0), (0, 4)]).fault = none :=
  translation_invariance heap0 heap0 10 (-3) [(0, 0), (4, 0), (0, 4)] (by decide) (by decide)
    (by decide) (by decide)

/-- C10 (even count, simple polygons). For a simple closed polygon of at least 3
vertices without horizontal edges, the intersections collected on every row the
sweep visits are even in number. The proof uses neither simplicity nor the
absence of horizontal edges. -/
theorem even_count_simple (heap : edge) (v : List (Int × Int)) (h3 : 3 ≤ v.length)
    (_hs : simple v) (_hh : no_horizontal v) :
    ∀ r ∈ (fill heap v).rows, r.intersections.length % 2 = 0 :=
  (fill_rows_even heap v h3).1

theorem simple_triangle : simple [(0, 0), (4, 1), (1, 4)] := by
  intro i j hi hj s t hs0 hs1 ht0 ht1 h
  simp only [List.length_cons, List.length_nil] at hi hj
  have hi3 : i < 3 := by omega
  have hj3 : j < 3 := by omega
  interval_cases i <;> interval_cases j <;>
    simp only [List.length_cons, List.length_nil, List.getD_cons_zero, List.getD_cons_succ,
      zero_add, Nat.reduceAdd, Nat.reduceMod, point_on, Prod.mk.injEq, Int.cast_zero,
      Int.cast_one, Int.cast_ofNat] at h <;>
    obtain ⟨ha, hb⟩ := h <;>
    first
      | exact ⟨rfl, by linarith⟩
      | (exfalso; linarith)

theorem no_horizontal_triangle : no_horizontal [(0, 0), (4, 1), (1, 4)] := by
  decide

/-- Witness of C10: the triangle `(0,0), (4,1), (1,4)`. -/
theorem even_count_simple_witness :
    simple [(0, 0), (4, 1), (1, 4)] ∧ no_horizontal [(0, 0), (4, 1), (1, 4)] ∧
      (fill heap0 [(0, 0), (4, 1), (1, 4)]).rows.all
        (fun r => decide (r.intersections.length % 2 = 0)) = true :=
  ⟨simple_triangle, no_horizontal_triangle,
    List.all_eq_true.2 (fun r hr => decide_eq_true
      (even_count_simple heap0 [(0, 0), (4, 1), (1, 4)] (by decide) simple_triangle
        no_horizontal_triangle r hr))⟩

/-- C14 (the assertion never fails). For every vertex sequence of at least 3
points, whatever its shape, every row the sweep visits collects an even number
of intersections, the run never stops at the `assert`, and for every even index
`i` below the count, `i + 1` is below the count as well. -/
theorem assertion_unreachable (heap : edge) (v : List (Int × Int)) (h3 : 3 ≤ v.length) :
    (∀ r ∈ (fill heap v).rows, r.intersections.length % 2 = 0) ∧
      (fill heap v).fault ≠ some Fault.assertion ∧
      (∀ r ∈ (fill heap v).rows, ∀ i : Nat, i % 2 = 0 → i < r.intersections.length →
        i + 1 < r.intersections.length) := by
  obtain ⟨h1, h2⟩ := fill_rows_even heap v h3
  refine ⟨h1, h2, ?_⟩
  intro r hr i hi hlt
  have := h1 r hr
  omega

/-- Witness of C14: a self-intersecting polygon with a repeated vertex. -/
theorem assertion_unreachable_witness :
    (fill heap0 [(0, 0), (5, 5), (10, 0), (10, 10), (5, 5), (0, 10)]).fault
      ≠ some Fault.assertion :=
  (assertion_unreachable heap0 [(0, 0), (5, 5), (10, 0), (10, 10), (5, 5), (0, 10)]
    (by decide)).2.1

/-- C17 (starting-vertex invariance). For a vertex sequence of length at least 3
with at least one non-horizontal edge and every `k`, the run on the sequence
rotated by `k` positions makes the same sequence of calls as the run on the
sequence itself (and stops the same way), whatever the edge array held before
either run. -/
theorem rotation_invariance (heap1 heap2 : edge) (v : List (Int × Int)) (k : Nat)
    (_h3 : 3 ≤ v.length) (hne : edge_table (coords_of v) v.length ≠ []) :
    (fill heap1 (v.rotate k)).calls = (fill heap2 v).calls ∧
      (fill heap1 (v.rotate k)).fault = (fill heap2 v).fault := by
  have hp := edge_table_rotate v k
  unfold fill
  rw [List.length_rotate] at hp ⊢
  exact fill_polygon_perm heap1 heap2 _ _ _ (by simpa using hp) (by simpa using hne)

/-- Witness of C17: the triangle `(0,0), (4,0), (0,4)` started at its second vertex. -/
theorem rotation_invariance_witness :
    (fill heap0 ([(0, 0), (4, 0), (0, 4)].rotate 1)).calls
        = (fill heap0 [(0, 0), (4, 0), (0, 4)]).calls ∧
      (fill heap0 ([(0, 0), (4, 0), (0, 4)].rotate 1)).fault
        = (fill heap0 [(0, 0), (4, 0), (0, 4)]).fault :=
  rotation_invariance heap0 heap0 [(0, 0), (4, 0), (0, 4)] 1 (by decide) (by decide)

/-- C19 (all-horizontal input). For a vertex sequence of at least 3 points that
all have the same `y`: the edge table is empty, `find_min_max_y` returns what
slot 0 of the edge array happened to hold, and the run makes no call, whatever
that content is. -/
theorem all_horizontal (heap : edge) (v : List (Int × Int)) (h3 : 3 ≤ v.length)
    (hall : ∀ a ∈ v, ∀ b ∈ v, a.2 = b.2) :
    edge_table (coords_of v) v.length = [] ∧
      find_min_max_y heap (edge_table (coords_of v) v.length) = (heap.y1, heap.y2) ∧
      (fill heap v).calls = [] := by
  have he := edge_table_of_flat v hall
  refine ⟨he, by rw [he]; rfl, ?_⟩
  have hlen : ¬ ((v.length : Int) < 3) := by omega
  simp only [fill, fill_polygon, hlen, if_false, Int.toNat_ofNat, he, List.any_nil]
  exact sweep_nil _ _

/-- Witness of C19: three points on row 1, with slot 0 of the edge array holding
an edge from row 2 to row 9. -/
theorem all_horizontal_witness :
    edge_table (coords_of [(1, 1), (2, 1), (3, 1)]) 3 = [] ∧
      find_min_max_y ⟨7, 2, 8, 9, true, 5⟩ (edge_table (coords_of [(1, 1), (2, 1), (3, 1)]) 3)
        = (2, 9) ∧
      (fill ⟨7, 2, 8, 9, true, 5⟩ [(1, 1), (2, 1), (3, 1)]).calls = [] :=
  all_horizontal ⟨7, 2, 8, 9, true, 5⟩ [(1, 1), (2, 1), (3, 1)] (by decide) (by decide)

/-- C20 (vertical extent). On a non-empty edge array whose edges have `y1 < y2`,
`find_min_max_y` returns as `min_y` the least `y1` and as `max_y` the greatest
`y2` over the edges, so that `min_y ≤ y1 < y2 ≤ max_y` for every edge. -/
theorem vertical_extent (heap : edge) (es : List edge) (hne : es ≠ [])
    (hlt : ∀ e ∈ es, e.y1 < e.y2) :
    ((∀ e ∈ es, (find_min_max_y heap es).1 ≤ e.y1) ∧
        ∃ e ∈ es, (find_min_max_y heap es).1 = e.y1) ∧
      ((∀ e ∈ es, e.y2 ≤ (find_min_max_y heap es).2) ∧
        ∃ e ∈ es, (find_min_max_y heap es).2 = e.y2) ∧
      ∀ e ∈ es, (find_min_max_y heap es).1 ≤ e.y1 ∧ e.y1 < e.y2 ∧
        e.y2 ≤ (find_min_max_y heap es).2 := by
  obtain ⟨h1, h2⟩ := find_min_max_y_spec heap es hne
  exact ⟨h1, h2, fun e he => ⟨h1.1 e he, hlt e he, h2.1 e he⟩⟩

/-- Witness of C20: the edge table of the triangle `(0,0), (4,1), (1,4)`. -/
theorem vertical_extent_witness :
    find_min_max_y heap0 (edge_table (coords_of [(0, 0), (4, 1), (1, 4)]) 3) = (0, 4) ∧
    ∀ e ∈ edge_table (coords_of [(0, 0), (4, 1), (1, 4)]) 3,
      (find_min_max_y heap0 (edge_table (coords_of [(0, 0), (4, 1), (1, 4)]) 3)).1 ≤ e.y1 ∧
        e.y1 < e.y2 ∧
        e.y2 ≤ (find_min_max_y heap0 (edge_table (coords_of [(0, 0), (4, 1), (1, 4)]) 3)).2 :=
  ⟨by decide,
    (vertical_extent heap0 (edge_table (coords_of [(0, 0), (4, 1), (1, 4)]) 3) (by decide)
      (by decide)).2.2⟩

/-- The in-range part of C13. For a vertex sequence of length at least 3: on
every row `y` the sweep visits, at the moment the intersections are collected,
the flag of each edge is true if and only if `y1 ≤ y < y2`; when no slope
division traps the rows visited are `min_y, ..., max_y`; the calls of one pass
are those of the flag-free reference; and when the `y` of the vertices are C
ints below `INT_MAX` the wrapping run ends with exactly these calls. -/
theorem refinement_below_max (heap : edge) (v : List (Int × Int)) (h3 : 3 ≤ v.length) :
    (∀ r ∈ (fill heap v).rows, ∀ e ∈ r.edges,
        (e.active = true ↔ e.y1 ≤ r.y ∧ r.y < e.y2)) ∧
      (no_trap (edge_table (coords_of v) v.length) →
        (fill heap v).rows.map (fun r => r.y)
          = rows_from (find_min_max_y heap (edge_table (coords_of v) v.length)).1
              ((find_min_max_y heap (edge_table (coords_of v) v.length)).2
                - (find_min_max_y heap (edge_table (coords_of v) v.length)).1 + 1).toNat) ∧
      (fill heap v).calls = fill_polygon_reference heap (coords_of v) v.length ∧
      (y_below_max v → ∃ N, ∀ n, N ≤ n →
        fill_polygon_wrapping heap (coords_of v) v.length n
          = fill_polygon_reference heap (coords_of v) v.length) := by
  have hlen : ¬ ((v.length : Int) < 3) := by omega
  have hcalls : (fill heap v).calls = fill_polygon_reference heap (coords_of v) v.length := by
    by_cases hdiv : no_trap (edge_table (coords_of v) v.length)
    · rw [fill_run heap v h3 hdiv]
      unfold no_trap at hdiv
      simp only [fill_polygon_reference, hlen, if_false, Int.toNat_ofNat, hdiv]
      rfl
    · rw [fill_of_trap heap v h3 hdiv]
      unfold no_trap at hdiv
      have hany : (edge_table (coords_of v) v.length).any
          (fun e => decide (slope_divisor e.y1 e.y2 = 0)) = true := by
        simpa using hdiv
      simp only [fill_polygon_reference, hlen, if_false, Int.toNat_ofNat, hany, if_true]
  refine ⟨?_, ?_, hcalls, ?_⟩
  · by_cases hdiv : no_trap (edge_table (coords_of v) v.length)
    · rw [fill_run heap v h3 hdiv]
      intro r hr e he
      obtain ⟨y, _, rfl⟩ := List.mem_map.1 hr
      have := mem_set_flags he
      simp only [row_record] at this ⊢
      rw [this]
      simp
    · rw [fill_of_trap heap v h3 hdiv]
      simp
  · intro hdiv
    rw [fill_run heap v h3 hdiv]
    simp only [List.map_map]
    conv_rhs => rw [← List.map_id (rows_from _ _)]
    apply List.map_congr_left
    intro y _
    rfl
  · intro hy
    obtain ⟨N, hN⟩ := (fill_polygon_wrapping_spec heap v h3 hy).2
    exact ⟨N, fun n hn => by rw [hN n hn, hcalls]⟩

/-- The flag-free reference on the triangle `(0,INT_MAX-2), (4,INT_MAX-2),
(0,INT_MAX)`: one call on each of the rows `INT_MAX-2` and `INT_MAX-1`. -/
theorem reference_at_int_max (heap : edge) :
    fill_polygon_reference heap
        (coords_of [(0, 2147483645), (4, 2147483645), (0, 2147483647)]) 3
      = [⟨0, 4, 2147483645⟩, ⟨0, 2, 2147483646⟩] := by
  have htable : edge_table (coords_of [(0, 2147483645), (4, 2147483645), (0, 2147483647)]) 3
      = [⟨4, 2147483645, 0, 2147483647, false, -131072⟩,
         ⟨0, 2147483645, 0, 2147483647, false, 0⟩] := by decide
  have hlen : ¬ ((3 : Int) < 3) := by decide
  have hdiv : ([⟨4, 2147483645, 0, 2147483647, false, -131072⟩,
      ⟨0, 2147483645, 0, 2147483647, false, 0⟩] : List edge).any
      (fun e => decide (slope_divisor e.y1 e.y2 = 0)) = false := by decide
  have hmm : find_min_max_y heap
      [⟨4, 2147483645, 0, 2147483647, false, -131072⟩,
       ⟨0, 2147483645, 0, 2147483647, false, 0⟩] = (2147483645, 2147483647) := by
    simp [find_min_max_y, min_max_step]
  have hnat : Int.toNat 3 = 3 := rfl
  simp only [fill_polygon_reference, hlen, if_false, hnat, htable, hdiv, hmm,
    Bool.false_eq_true]
  decide

/-- C13 at the failing input, the triangle `(0,INT_MAX-2), (4,INT_MAX-2),
(0,INT_MAX)`: the flag-free reference over the rows `min_y .. max_y` makes the
two calls `(0,4,INT_MAX-2)`, `(0,2,INT_MAX-1)`, while the run, whose loop test
never fails, has made these two calls and `(0,4,INT_MAX-2)` again after
`2^32 + 1` tests: its output is not that of the reference. -/
theorem refinement_overflow :
    (∀ heap : edge,
      fill_polygon_reference heap
          (coords_of [(0, 2147483645), (4, 2147483645), (0, 2147483647)]) 3
        = [⟨0, 4, 2147483645⟩, ⟨0, 2, 2147483646⟩]) ∧
    (∀ heap : edge,
      fill_polygon_wrapping heap
          (coords_of [(0, 2147483645), (4, 2147483645), (0, 2147483647)]) 3 4294967297
        = [⟨0, 4, 2147483645⟩, ⟨0, 2, 2147483646⟩, ⟨0, 4, 2147483645⟩]) ∧
    (∀ heap : edge,
      ¬ fill_polygon_wrapping heap
          (coords_of [(0, 2147483645), (4, 2147483645), (0, 2147483647)]) 3 4294967297
        <+: fill_polygon_reference heap
          (coords_of [(0, 2147483645), (4, 2147483645), (0, 2147483647)]) 3) := by
  refine ⟨reference_at_int_max, wrapping_run_at_int_max, fun heap h => ?_⟩
  have hlen := h.length_le
  rw [wrapping_run_at_int_max, reference_at_int_max] at hlen
  simp at hlen

/-- Counterexample to C11 as stated: the simple polygon
`(0,0), (10,0), (10,5), (5,1), (0,5)` has both edges of its notch at `x = 5` on
row 1, so the run calls `(0,5,1)` and then `(5,10,1)`: the second span starts
where the first ends. -/
theorem strict_monotonicity_counterexample :
    3 ≤ [((0 : Int), (0 : Int)), (10, 0), (10, 5), (5, 1), (0, 5)].length ∧
    (fill heap0 [(0, 0), (10, 0), (10, 5), (5, 1), (0, 5)]).calls
      = [⟨0, 10, 0⟩, ⟨0, 5, 1⟩, ⟨5, 10, 1⟩, ⟨0, 4, 2⟩, ⟨6, 10, 2⟩, ⟨0, 3, 3⟩, ⟨8, 10, 3⟩,
         ⟨0, 1, 4⟩, ⟨9, 10, 4⟩] ∧
    ¬ consecutive strictly_precedes
      (fill heap0 [(0, 0), (10, 0), (10, 5), (5, 1), (0, 5)]).calls := by
  have hcalls : (fill heap0 [(0, 0), (10, 0), (10, 5), (5, 1), (0, 5)]).calls
      = [⟨0, 10, 0⟩, ⟨0, 5, 1⟩, ⟨5, 10, 1⟩, ⟨0, 4, 2⟩, ⟨6, 10, 2⟩, ⟨0, 3, 3⟩, ⟨8, 10, 3⟩,
         ⟨0, 1, 4⟩, ⟨9, 10, 4⟩] := by decide
  refine ⟨by decide, hcalls, ?_⟩
  rw [hcalls]
  intro h
  have h2 := h 1 ⟨0, 5, 1⟩ ⟨5, 10, 1⟩ rfl rfl
  revert h2
  decide

/-- C11 amended (monotonicity). For every vertex sequence of at least 3 points
whose `y` are C ints below `INT_MAX`, any two consecutive calls `(a,b,y)` then
`(c,d,y')` satisfy `y < y'`, or `y = y'` and `b ≤ c`: rows increase strictly, and
the spans of a row do not overlap but may touch. This holds of the calls the
wrapping run has made after any number of tests of its loop, and of all the
calls of the run. -/
theorem monotonicity (heap : edge) (v : List (Int × Int)) (h3 : 3 ≤ v.length)
    (hy : y_below_max v) :
    (∀ n, consecutive weakly_precedes (fill_polygon_wrapping heap (coords_of v) v.length n)) ∧
      consecutive weakly_precedes (fill heap v).calls := by
  have key : ∀ fuel y edges, List.Chain' weakly_precedes (sweep fuel y edges).calls := by
    intro fuel y edges
    apply (sweep_ordered fuel y edges).2.imp
    intro s t h
    rcases h with h | ⟨h1, _, h2⟩
    · exact Or.inl h
    · exact Or.inr ⟨h1, h2⟩
  have hall : List.Chain' weakly_precedes (fill heap v).calls := by
    unfold fill
    rcases fill_polygon_calls heap (coords_of v) v.length with h | ⟨fuel, y, edges, h⟩
    · rw [h]; exact List.chain'_nil
    · rw [h]; exact key fuel y edges
  have hpre : ∀ n, List.Chain' weakly_precedes
      (fill_polygon_wrapping heap (coords_of v) v.length n) :=
    fun n => List.Chain'.prefix hall ((fill_polygon_wrapping_spec heap v h3 hy).1 n)
  exact ⟨fun n => consecutive_of_chain' _ (hpre n), consecutive_of_chain' _ hall⟩

/-- Witness of C11 amended: the polygon of the counterexample. -/
theorem monotonicity_witness :
    (∀ n, consecutive weakly_precedes
        (fill_polygon_wrapping heap0
          (coords_of [(0, 0), (10, 0), (10, 5), (5, 1), (0, 5)])
          [((0 : Int), (0 : Int)), (10, 0), (10, 5), (5, 1), (0, 5)].length n)) ∧
      consecutive weakly_precedes
        (fill heap0 [(0, 0), (10, 0), (10, 5), (5, 1), (0, 5)]).calls :=
  monotonicity heap0 [(0, 0), (10, 0), (10, 5), (5, 1), (0, 5)] (by decide) (by decide)

/-- C16 (horizontal bounding box). For an edge from `(x1,y1)` to `(x2,y2)` with
`y1 < y2`, `|x2 - x1| < 2^15`, `y2 - y1 < 2^15` and `x1`, `x2` C ints, and every
row `y1 ≤ y < y2`: the computed intersection lies between `min x1 x2` and
`max x1 x2`, and it is `x1` on row `y1`. Consequently, for a polygon of at least
3 vertices whose `x` are C ints and whose stored edges all satisfy these bounds,
every call `(a, b, y)` has `xmin ≤ a ≤ b ≤ xmax` with `xmin`, `xmax` the least
and greatest `x` over the vertices. -/
theorem bounding_box :
    (∀ x1 y1 x2 y2 y : Int, is_int x1 → is_int x2 → y1 < y2 →
      -32768 < x2 - x1 → x2 - x1 < 32768 → y2 - y1 < 32768 → y1 ≤ y → y < y2 →
      min x1 x2 ≤ intersection (make_edge x1 y1 x2 y2) y ∧
        intersection (make_edge x1 y1 x2 y2) y ≤ max x1 x2 ∧
        intersection (make_edge x1 y1 x2 y2) y1 = x1) ∧
    (∀ (heap : edge) (v : List (Int × Int)), 3 ≤ v.length → (∀ q ∈ v, is_int q.1) →
      small_edges (edge_table (coords_of v) v.length) →
      ∀ s ∈ (fill heap v).calls,
        vertex_min_x v ≤ s.x1 ∧ s.x1 ≤ s.x2 ∧ s.x2 ≤ vertex_max_x v) := by
  constructor
  · intro x1 y1 x2 y2 y hi1 hi2 hlt hx1 hx2 hy2 h1 h2
    have hns : ¬ y1 > y2 := by omega
    have e1 : (make_edge x1 y1 x2 y2).x1 = x1 := by rw [make_edge_x1]; simp [hns]
    have e2 : (make_edge x1 y1 x2 y2).x2 = x2 := by rw [make_edge_x2]; simp [hns]
    have e3 : (make_edge x1 y1 x2 y2).y1 = y1 := by rw [make_edge_y1]; simp [hns]
    have e4 : (make_edge x1 y1 x2 y2).y2 = y2 := by rw [make_edge_y2]; simp [hns]
    have hbox := intersection_in_box (make_edge x1 y1 x2 y2) y rfl
      (by rw [e1, e2]; exact hx1) (by rw [e1, e2]; exact hx2) (by rw [e3, e4]; exact hy2)
      (by rw [e3]; exact h1) (by rw [e4]; exact h2) (by rw [e1]; exact hi1)
      (by rw [e2]; exact hi2)
    rw [e1, e2] at hbox
    have hstart := intersection_at_start (make_edge x1 y1 x2 y2) (by rw [e1]; exact hi1)
    rw [e1, e3] at hstart
    exact ⟨hbox.2.1, hbox.2.2, hstart⟩
  · intro heap v h3 hint hsmall s hs
    have hdiv := no_trap_of_small _ (edge_table_lt v) hsmall
    have hrow := (mem_fill_calls heap v h3 hdiv s).1 hs
    obtain ⟨hmem, _⟩ := emit_sorted s.y _ _ le_rfl
      (qsort_sorted (row_xs (edge_table (coords_of v) v.length) s.y))
    obtain ⟨_, hle, m1, m2⟩ := hmem s hrow
    have hbound : ∀ x ∈ qsort (row_xs (edge_table (coords_of v) v.length) s.y),
        vertex_min_x v ≤ x ∧ x ≤ vertex_max_x v := by
      intro x hx
      have hx' : x ∈ row_xs (edge_table (coords_of v) v.length) s.y :=
        (qsort_perm _).mem_iff.1 hx
      unfold row_xs at hx'
      obtain ⟨e, he, rfl⟩ := List.mem_map.1 hx'
      obtain ⟨het, hact⟩ := List.mem_filter.1 he
      have hon : e.y1 ≤ s.y ∧ s.y < e.y2 := by simpa [active_on] using hact
      obtain ⟨a, ha, b, hb, _, hab⟩ := mem_edge_table_ends het
      have hx1 : e.x1 = a.1 ∨ e.x1 = b.1 := by
        rw [hab, make_edge_x1]; split_ifs <;> simp
      have hx2 : e.x2 = a.1 ∨ e.x2 = b.1 := by
        rw [hab, make_edge_x2]; split_ifs <;> simp
      have ia := hint a ha
      have ib := hint b hb
      have hi1 : is_int e.x1 := by rcases hx1 with h | h <;> rw [h] <;> assumption
      have hi2 : is_int e.x2 := by rcases hx2 with h | h <;> rw [h] <;> assumption
      have hslope : e.inverse_slope = fp_div (shl32 (wrap32 (e.x2 - e.x1)) FRACBITS)
          (slope_divisor e.y1 e.y2) FRACBITS := by rw [hab]; rfl
      obtain ⟨_, b1, b2⟩ := intersection_in_box e s.y hslope (hsmall e het).1.1
        (hsmall e het).1.2 (hsmall e het).2 hon.1 hon.2 hi1 hi2
      have la := vertex_min_x_le v a ha
      have lb := vertex_min_x_le v b hb
      have ua := le_vertex_max_x v a ha
      have ub := le_vertex_max_x v b hb
      have hmin : vertex_min_x v ≤ min e.x1 e.x2 := by
        apply le_min
        · rcases hx1 with h | h <;> rw [h] <;> assumption
        · rcases hx2 with h | h <;> rw [h] <;> assumption
      have hmax : max e.x1 e.x2 ≤ vertex_max_x v := by
        apply max_le
        · rcases hx1 with h | h <;> rw [h] <;> assumption
        · rcases hx2 with h | h <;> rw [h] <;> assumption
      exact ⟨le_trans hmin b1, le_trans b2 hmax⟩
    exact ⟨(hbound _ m1).1, hle, (hbound _ m2).2⟩

/-- Witness of C16: the edge from `(4,1)` to `(1,4)` on row 2, and the span of
row 2 of the triangle `(0,0), (4,1), (1,4)`. -/
theorem bounding_box_witness :
    (min 4 1 ≤ intersection (make_edge 4 1 1 4) 2 ∧
        intersection (make_edge 4 1 1 4) 2 ≤ max 4 1 ∧
        intersection (make_edge 4 1 1 4) 1 = 4) ∧
      (vertex_min_x [(0, 0), (4, 1), (1, 4)] ≤ (⟨1, 3, 2⟩ : hline).x1 ∧
        (⟨1, 3, 2⟩ : hline).x1 ≤ (⟨1, 3, 2⟩ : hline).x2 ∧
        (⟨1, 3, 2⟩ : hline).x2 ≤ vertex_max_x [(0, 0), (4, 1), (1, 4)]) :=
  ⟨bounding_box.1 4 1 1 4 2 (by decide) (by decide) (by decide) (by decide) (by decide)
      (by decide) (by decide) (by decide),
    bounding_box.2 heap0 [(0, 0), (4, 1), (1, 4)] (by decide) (by decide) (by decide)
      ⟨1, 3, 2⟩ (by decide)⟩

/-- Counterexample to C12 as stated: on the edge from `(0,0)` to `(1,6)` the
stored slope is `65536 / 6` truncated to 10922, so on row 3 the code computes
`(3 * 10922 + 32768) >> 16 = 0`, while the exact intersection is `1/2`, which
rounds (ties up) to 1. -/
theorem round_to_nearest_counterexample :
    ((0 : Int) < 6 ∧ -32768 < (1 : Int) - 0 ∧ (1 : Int) - 0 < 32768 ∧ (6 : Int) - 0 < 32768 ∧
      (0 : Int) ≤ 3 ∧ (3 : Int) < 6) ∧
    (make_edge 0 0 1 6).inverse_slope = 10922 ∧
    intersection (make_edge 0 0 1 6) 3 = 0 ∧
    ⌊exact_x 0 0 1 6 3 + 1 / 2⌋ = 1 ∧
    intersection (make_edge 0 0 1 6) 3 ≠ ⌊exact_x 0 0 1 6 3 + 1 / 2⌋ := by
  have hfloor : ⌊exact_x 0 0 1 6 3 + 1 / 2⌋ = 1 := by
    unfold exact_x
    norm_num
  have hx : intersection (make_edge 0 0 1 6) 3 = 0 := by decide
  refine ⟨by decide, by decide, hx, hfloor, ?_⟩
  rw [hx, hfloor]
  decide

/-- C12 amended (fixed-point rounding). For an edge from `(x1,y1)` to `(x2,y2)`
with `y1 < y2`, `|x2 - x1| < 2^15`, `y2 - y1 < 2^15`, `x1` and `x2` C ints, and a
row `y1 ≤ y < y2`: the computed intersection is
`x1 + floor((S (y - y1) + 2^15) / 2^16)` with `S` the slope
`(x2 - x1) 2^16 / (y2 - y1)` truncated toward zero, that is the fixed-point
product rounded to nearest with ties up; it is `floor(exact + 1/2)` or the
integer next to it on the side of `x1`. -/
theorem fixed_point_rounding (x1 y1 x2 y2 y : Int) (hi1 : is_int x1) (hi2 : is_int x2)
    (hlt : y1 < y2) (hx1 : -32768 < x2 - x1) (hx2 : x2 - x1 < 32768)
    (hy2 : y2 - y1 < 32768) (h1 : y1 ≤ y) (h2 : y < y2) :
    intersection (make_edge x1 y1 x2 y2) y
        = x1 + (fixed_slope x1 y1 x2 y2 * (y - y1) + 32768) / 65536 ∧
      (0 ≤ x2 - x1 →
        ⌊exact_x x1 y1 x2 y2 y + 1 / 2⌋ - 1 ≤ intersection (make_edge x1 y1 x2 y2) y ∧
        intersection (make_edge x1 y1 x2 y2) y ≤ ⌊exact_x x1 y1 x2 y2 y + 1 / 2⌋) ∧
      (x2 - x1 ≤ 0 →
        ⌊exact_x x1 y1 x2 y2 y + 1 / 2⌋ ≤ intersection (make_edge x1 y1 x2 y2) y ∧
        intersection (make_edge x1 y1 x2 y2) y ≤ ⌊exact_x x1 y1 x2 y2 y + 1 / 2⌋ + 1) := by
  obtain ⟨hp, hn⟩ := intersection_near_exact x1 y1 x2 y2 y hi1 hi2 hlt hx1 hx2 hy2 h1 h2
  have hk0 : (0 : ℚ) ≤ ((y - y1 : Int) : ℚ) := Int.cast_nonneg.2 (by omega)
  have hk1 : ((y - y1 : Int) : ℚ) < 32768 := by
    have : ((y - y1 : Int) : ℚ) < ((32768 : Int) : ℚ) := Int.cast_lt.2 (by omega)
    simpa using this
  have f1 := Int.floor_le (exact_x x1 y1 x2 y2 y + 1 / 2)
  have f2 := Int.lt_floor_add_one (exact_x x1 y1 x2 y2 y + 1 / 2)
  refine ⟨intersection_fixed x1 y1 x2 y2 y hi1 hi2 hlt hx1 hx2 hy2 h1 h2, ?_, ?_⟩
  · intro hD
    obtain ⟨a, b⟩ := hp hD
    constructor
    · have : ((⌊exact_x x1 y1 x2 y2 y + 1 / 2⌋ - 1 : Int) : ℚ)
          < ((intersection (make_edge x1 y1 x2 y2) y + 1 : Int) : ℚ) := by
        push_cast
        linarith
      have := Int.cast_lt.1 this
      omega
    · exact Int.le_floor.2 a
  · intro hD
    obtain ⟨a, b⟩ := hn hD
    constructor
    · have : ((⌊exact_x x1 y1 x2 y2 y + 1 / 2⌋ : Int) : ℚ)
          < ((intersection (make_edge x1 y1 x2 y2) y + 1 : Int) : ℚ) := by
        push_cast
        linarith
      have := Int.cast_lt.1 this
      omega
    · have : ((intersection (make_edge x1 y1 x2 y2) y : Int) : ℚ)
          < ((⌊exact_x x1 y1 x2 y2 y + 1 / 2⌋ + 2 : Int) : ℚ) := by
        push_cast
        linarith
      have := Int.cast_lt.1 this
      omega

/-- Witness of C12 amended: the edge of the counterexample, where the computed
intersection is one below `floor(exact + 1/2)`. -/
theorem fixed_point_rounding_witness :
    intersection (make_edge 0 0 1 6) 3 = 0 + (fixed_slope 0 0 1 6 * (3 - 0) + 32768) / 65536 ∧
      ((0 : Int) ≤ 1 - 0 →
        ⌊exact_x 0 0 1 6 3 + 1 / 2⌋ - 1 ≤ intersection (make_edge 0 0 1 6) 3 ∧
        intersection (make_edge 0 0 1 6) 3 ≤ ⌊exact_x 0 0 1 6 3 + 1 / 2⌋) ∧
      ((1 : Int) - 0 ≤ 0 →
        ⌊exact_x 0 0 1 6 3 + 1 / 2⌋ ≤ intersection (make_edge 0 0 1 6) 3 ∧
        intersection (make_edge 0 0 1 6) 3 ≤ ⌊exact_x 0 0 1 6 3 + 1 / 2⌋ + 1) :=
  fixed_point_rounding 0 0 1 6 3 (by decide) (by decide) (by decide) (by decide) (by decide)
    (by decide) (by decide) (by decide)

/-- C15 at the failing input `(0,0), (10,0), (5,65536)`: both stored edges have
`y2 - y1 = 65536`, the divisor `(y2 - y1) << FRACBITS` computed in `int` is 0, and
the run stops at the division before any call, whatever the edge array held. -/
theorem edge_extraction_zero_divisor :
    (edge_table (coords_of [(0, 0), (10, 0), (5, 65536)]) 3).map
        (fun e => (e.x1, e.y1, e.x2, e.y2)) = [(10, 0, 5, 65536), (0, 0, 5, 65536)] ∧
      slope_divisor 0 65536 = 0 ∧
      ∀ heap : edge, fill heap [(0, 0), (10, 0), (5, 65536)]
        = ⟨[], [], some Fault.division_by_zero⟩ := by
  refine ⟨by decide, by decide, fun heap => ?_⟩
  apply fill_of_trap heap _ (by decide)
  unfold no_trap
  decide

/-- C18 at the failing input, the edge from `(0,0)` to `(3,32768)`: the divisor
`(y2 - y1) << FRACBITS` overflows `int` to `-2^31`, the stored slope is `-6`, and
on row 16384 the computed intersection is `-1` while the exact one is `3/2`;
the triangle `(0,0), (3,32768), (-20,32768)` gets the call `(-1, 10, 16384)`. -/
theorem interpolation_error_overflow :
    ((0 : Int) < 32768 - 0 ∧ (32768 : Int) - 0 ≤ 32768 ∧ -32768 < (3 : Int) - 0 ∧
      (3 : Int) - 0 < 32768 ∧ (0 : Int) ≤ 16384 ∧ (16384 : Int) < 32768) ∧
    slope_divisor 0 32768 = -2147483648 ∧
    (make_edge 0 0 3 32768).inverse_slope = -6 ∧
    intersection (make_edge 0 0 3 32768) 16384 = -1 ∧
    exact_x 0 0 3 32768 16384 = 3 / 2 ∧
    ¬ |((intersection (make_edge 0 0 3 32768) 16384 : Int) : ℚ) - exact_x 0 0 3 32768 16384| < 1 ∧
    ∀ heap : edge, ⟨-1, 10, 16384⟩ ∈ (fill heap [(0, 0), (3, 32768), (-20, 32768)]).calls := by
  have hx : intersection (make_edge 0 0 3 32768) 16384 = -1 := by decide
  have he : exact_x 0 0 3 32768 16384 = 3 / 2 := by
    unfold exact_x
    norm_num
  refine ⟨by decide, by decide, by decide, hx, he, ?_, fun heap => ?_⟩
  · rw [hx, he]
    norm_num [abs_lt]
  · have hdiv : no_trap (edge_table (coords_of [(0, 0), (3, 32768), (-20, 32768)])
        [((0 : Int), (0 : Int)), (3, 32768), (-20, 32768)].length) := by
      unfold no_trap
      decide
    rw [mem_fill_calls heap _ (by decide) hdiv]
    decide

end Polyfill
